import Mathlib

/-!
Shallow embedding of the workflow-DAG core of the Composite_Workflows
repository: the generic `DAG` container (src/src/dag.py) and the
`CondensedNode` wrapper (src/src/condensed_node.py, and its twin
src/maestrowf/datastructures/core/condensed_node.py, which differs only in
logging and an extra `condensed_edge` list not used by the operations
modelled here).

Python `OrderedDict`s are modelled as association lists (`List (String × α)`)
with ordered insert/update (`setA`), Python `list`s as `List`, and the
Python `set` `used_group_ids` as a `List String` updated by append-if-absent
(the code only ever tests membership and adds).  A raised exception is
modelled as `some e : Option PyErr` paired with the state at the moment of
the raise (Python mutates the object in place, so state changes made before
the raise persist).  A normal return is `none`.  The recursive DFS helpers
`_detect_cycle` and `_topological_sort` are modelled with an explicit fuel
argument; the fuel chosen by `detect_cycle`/`topological_sort` is shown to
be sufficient for well-formed graphs, which are the only states the Python
code can reach (on ill-formed dictionaries Python itself would `KeyError`).
-/

namespace CompositeWorkflows

/-! ## Definitions -/

/-- Error outcomes of the Python code.  Each constructor corresponds to one
`raise` site; the spec's error names map as: `UnknownNode` ≙ `srcMissing` /
`subSrcMissing` / `subDestMissing`, `CycleRejected` ≙ `cycleCreated` /
`subCycle`, `InvalidArgument` ≙ the `group*`/`pipe*` argument errors and
`subSelfLoop`, `DuplicateGroupId` ≙ `groupIdDup`, `InvalidOperation` ≙
`getGroupWrongKind`. -/
inductive PyErr where
  | srcMissing : PyErr
  | cycleCreated : PyErr
  | subSelfLoop : PyErr
  | subSrcMissing : PyErr
  | subDestMissing : PyErr
  | subCycle : PyErr
  | groupWrongKind : PyErr
  | groupSingle : PyErr
  | groupEmpty : PyErr
  | groupIdEmpty : PyErr
  | groupIdDup : PyErr
  | getGroupWrongKind : PyErr
  | pipeWrongKind : PyErr
  | pipeSingle : PyErr
  | pipeEmpty : PyErr
  | pipeLenMismatch : PyErr
  deriving DecidableEq, Repr

/-- First-match lookup in an association list (Python `dict` read). -/
def alookup {α : Type _} : List (String × α) → String → Option α
  | [], _ => none
  | (k, v) :: rest, key => if k = key then some v else alookup rest key

/-- The keys of an association list, in insertion order. -/
def keysOf {α : Type _} (l : List (String × α)) : List String := l.map Prod.fst

/-- Python `OrderedDict` assignment `d[k] = v`: update in place if the key
exists, append at the end otherwise. -/
def setA {α : Type _} : List (String × α) → String → α → List (String × α)
  | [], key, v => [(key, v)]
  | (k, w) :: rest, key, v =>
    if k = key then (key, v) :: rest else (k, w) :: setA rest key v

/-- An adjacency table: node name to ordered successor list. -/
abbrev Adj := List (String × List String)

/-- `self.adjacency_table[v]` (defaulting to `[]` where Python would
`KeyError`; the two agree on well-formed graphs). -/
def succsOf (adj : Adj) (v : String) : List String := (alookup adj v).getD []

/-- The `DAG` class of src/src/dag.py: `self.values` and
`self.adjacency_table`, both ordered mappings. -/
structure DAG (V : Type) where
  values : List (String × V)
  adjacency_table : Adj
  deriving DecidableEq, Repr

/-- The freshly constructed DAG (`DAG.__init__`). -/
def DAG.empty (V : Type) : DAG V := { values := [], adjacency_table := [] }

/-- `DAG.add_node` (src/src/dag.py lines 16-30): no-op if the name is
already a key of `values`, otherwise stores the payload and an empty
successor list. -/
def add_node {V : Type} (g : DAG V) (name : String) (obj : V) : DAG V :=
  if name ∈ keysOf g.values then g
  else { values := setA g.values name obj,
         adjacency_table := setA g.adjacency_table name [] }

/-- One iteration of the `for c in self.adjacency_table[v]` loop of
`DAG._detect_cycle`, with an early `return True` modelled by carrying the
`true` result unchanged through the rest of the fold. -/
def dcStep (dc : String → List String → List String → Bool × List String × List String)
    (acc : Bool × List String × List String) (c : String) :
    Bool × List String × List String :=
  match acc with
  | (true, vis, rs) => (true, vis, rs)
  | (false, vis, rs) =>
    if c ∈ vis then
      if c ∈ rs then (true, vis, rs) else (false, vis, rs)
    else dc c vis rs

/-- `DAG._detect_cycle` (src/src/dag.py lines 138-165): mark `v` visited and
on the recursion stack, scan its successors (unvisited ones recursively, a
successor on the stack reports a cycle), then pop `v` from the stack on the
`False` path.  `fuel` bounds the recursion depth; each recursive call is on
an unvisited node, so any fuel exceeding the number of graph nodes is never
exhausted (proved below for well-formed graphs). -/
def dcNode (adj : Adj) : Nat → String → List String → List String →
    Bool × List String × List String
  | 0, _, vis, rs => (true, vis, rs)
  | fuel + 1, v, vis, rs =>
    match (succsOf adj v).foldl
        (dcStep (fun c vis rs => dcNode adj fuel c vis rs))
        (false, v :: vis, v :: rs) with
    | (true, vis2, rs2) => (true, vis2, rs2)
    | (false, vis2, rs2) => (false, vis2, rs2.erase v)

/-- The `for v in self.values` loop of `DAG.detect_cycle` (src/src/dag.py
lines 125-136): visit every not-yet-visited node, short-circuiting on a
detected cycle. -/
def dcRoots (adj : Adj) (fuel : Nat) :
    List String → List String → List String → Bool
  | [], _, _ => false
  | v :: rest, vis, rs =>
    if v ∈ vis then dcRoots adj fuel rest vis rs
    else
      match dcNode adj fuel v vis rs with
      | (true, _, _) => true
      | (false, vis2, rs2) => dcRoots adj fuel rest vis2 rs2

/-- `DAG.detect_cycle`. -/
def detect_cycle {V : Type} (g : DAG V) : Bool :=
  dcRoots g.adjacency_table (g.values.length + 1) (keysOf g.values) [] []

/-- One iteration of the successor loop of `DAG._topological_sort`:
recurse into unvisited successors only. -/
def tsStep (ts : String → List String → List String → List String × List String)
    (acc : List String × List String) (c : String) : List String × List String :=
  if c ∈ acc.1 then acc else ts c acc.1 acc.2

/-- `DAG._topological_sort` (src/src/dag.py lines 91-109): mark `v`
visited, recurse through unvisited successors, then prepend `v` to the
output stack (`stack.appendleft(v)`). -/
def tsNode (adj : Adj) : Nat → String → List String → List String →
    List String × List String
  | 0, _, vis, stack => (vis, stack)
  | fuel + 1, v, vis, stack =>
    let r := (succsOf adj v).foldl
        (tsStep (fun c vis stack => tsNode adj fuel c vis stack)) (v :: vis, stack)
    (r.1, v :: r.2)

/-- The `for v in self.values` loop of `DAG.topological_sort`. -/
def tsRoots (adj : Adj) (fuel : Nat) :
    List String → List String → List String → List String × List String
  | [], vis, stack => (vis, stack)
  | v :: rest, vis, stack =>
    if v ∈ vis then tsRoots adj fuel rest vis stack
    else
      let r := tsNode adj fuel v vis stack
      tsRoots adj fuel rest r.1 r.2

/-- `DAG.topological_sort` (src/src/dag.py lines 111-123). -/
def topological_sort {V : Type} (g : DAG V) : List String :=
  (tsRoots g.adjacency_table (g.values.length + 1) (keysOf g.values) [] []).2

/-- `DAG.add_edge` (src/src/dag.py lines 32-69).  Note the source's exact
policy: a self-loop and a missing destination are silent no-ops (print and
`return`), a missing source raises `ValueError`, a duplicate edge is a
no-op; otherwise the edge is appended and, if `detect_cycle()` then holds,
an `Exception` is raised with the appended edge left in place. -/
def add_edge {V : Type} (g : DAG V) (src dest : String) : Option PyErr × DAG V :=
  if src = dest then (none, g)
  else if src ∉ keysOf g.adjacency_table then (some .srcMissing, g)
  else if dest ∉ keysOf g.adjacency_table then (none, g)
  else if dest ∈ succsOf g.adjacency_table src then (none, g)
  else
    let g2 : DAG V :=
      { g with adjacency_table := (setA g.adjacency_table src
          (succsOf g.adjacency_table src ++ [dest])) }
    if detect_cycle g2 then (some .cycleCreated, g2) else (none, g2)

/-- The node-kind constants of src/src/condensed_node.py. -/
def PIPE : String := "_pipe"

/-- See `PIPE`. -/
def GROUP : String := "_group"

/-- See `PIPE`. -/
def SUBDAG : String := "_subdag"

/-- A node payload of a condensed node: either an opaque caller object or
the `OrderedDict` aggregate built by `add_group`. -/
inductive CVal (V : Type) where
  | obj : V → CVal V
  | dict : List (String × V) → CVal V
  deriving DecidableEq, Repr

/-- The `CondensedNode` class: a `DAG` (the inherited `values` /
`adjacency_table`) plus the kind tag `type`, the instance `name` and the
`used_group_ids` set. -/
structure CN (V : Type) where
  type : String
  name : String
  graph : DAG (CVal V)
  used_group_ids : List String
  deriving DecidableEq, Repr

/-- `CondensedNode.__init__`: accepts exactly the three kind constants,
raising (`none` here) otherwise. -/
def CN.make (V : Type) (name ntype : String) : Option (CN V) :=
  if ntype = PIPE ∨ ntype = GROUP ∨ ntype = SUBDAG then
    some { type := ntype, name := name, graph := DAG.empty (CVal V),
           used_group_ids := [] }
  else none

/-- `CondensedNode.add_sub_edge` (src/src/condensed_node.py lines 178-214):
unlike `DAG.add_edge`, a self-loop and a missing destination also raise;
the cycle check after appending runs only when the kind is not `PIPE`, and
on detection the appended edge is again left in place. -/
def add_sub_edge {V : Type} (c : CN V) (src dest : String) : Option PyErr × CN V :=
  if src = dest then (some .subSelfLoop, c)
  else if src ∉ keysOf c.graph.adjacency_table then (some .subSrcMissing, c)
  else if dest ∉ keysOf c.graph.adjacency_table then (some .subDestMissing, c)
  else if dest ∈ succsOf c.graph.adjacency_table src then (none, c)
  else
    let g2 : DAG (CVal V) :=
      { c.graph with adjacency_table := (setA c.graph.adjacency_table src
          (succsOf c.graph.adjacency_table src ++ [dest])) }
    let c2 : CN V := { c with graph := g2 }
    if c.type ≠ PIPE ∧ detect_cycle g2 then (some .subCycle, c2) else (none, c2)

/-- `next(reversed(self.values))`: the most recently inserted key. -/
def lastKey {α : Type _} (l : List (String × α)) : String := (keysOf l).getLastD ""

/-- The two assignments `self.values[name] = obj;
self.adjacency_table[name] = []` shared by the `add_sub_node` branches. -/
def rawAdd {V : Type} (g : DAG V) (name : String) (obj : V) : DAG V :=
  { values := setA g.values name obj, adjacency_table := setA g.adjacency_table name [] }

/-- `CondensedNode.add_sub_node` (src/src/condensed_node.py lines 146-176):
no-op on a duplicate name; a plain insert for `GROUP`/`SUBDAG`; for `PIPE`
with at least one existing member, insert and auto-chain from the most
recently inserted member; for `PIPE` with no member, a plain insert. -/
def add_sub_node {V : Type} (c : CN V) (name : String) (obj : CVal V) :
    Option PyErr × CN V :=
  if name ∈ keysOf c.graph.values then (none, c)
  else if c.type = GROUP ∨ c.type = SUBDAG then
    (none, { c with graph := rawAdd c.graph name obj })
  else if c.type = PIPE ∧ c.graph.values.isEmpty = false then
    let src_edge := lastKey c.graph.values
    add_sub_edge { c with graph := rawAdd c.graph name obj } src_edge name
  else if c.type = PIPE then (none, { c with graph := rawAdd c.graph name obj })
  else (none, c)

/-- The member loop of `add_group`: build the internal `OrderedDict`;
`none` models the early plain `return` taken when a member name repeats. -/
def buildInternal {V : Type} : List (String × V) → List (String × V) →
    Option (List (String × V))
  | acc, [] => some acc
  | acc, (n, p) :: rest =>
    if n ∈ keysOf acc then none else buildInternal (acc ++ [(n, p)]) rest

/-- Lines 103-105 of src/src/condensed_node.py: add `group_id` to
`used_group_ids` if absent.  This code runs on every path of `add_group`
that neither raises nor hits the duplicate-member early return — including
the path where `names` and `group` differ in length and nothing was
inserted. -/
def finishGid {V : Type} (c : CN V) (group_id : String) : CN V :=
  if group_id ∈ c.used_group_ids then c
  else { c with used_group_ids := c.used_group_ids ++ [group_id] }

/-- `CondensedNode.add_group` (src/src/condensed_node.py lines 55-105).
Guard order and outcomes follow the source: wrong kind, `len(names) and
len(group) == 1`, empty `group`, empty `group_id`, duplicate id all raise;
with matching lengths the aggregate is inserted as the single sub-node and
the optional (truthy) `depends_on` edge is drawn; with differing lengths
the body is skipped and control still falls through to `finishGid`. -/
def add_group {V : Type} (c : CN V) (group_id : String) (depends_on : Option String)
    (names : List String) (group : List V) : Option PyErr × CN V :=
  if c.type ≠ GROUP then (some .groupWrongKind, c)
  else if names.isEmpty = false ∧ group.length = 1 then (some .groupSingle, c)
  else if group.isEmpty then (some .groupEmpty, c)
  else if group_id = "" then (some .groupIdEmpty, c)
  else if group_id ∈ c.used_group_ids then (some .groupIdDup, c)
  else if names.length = group.length then
    match buildInternal [] (names.zip group) with
    | none => (none, c)
    | some internal =>
      match add_sub_node c group_id (CVal.dict internal) with
      | (some e, c1) => (some e, c1)
      | (none, c1) =>
        match depends_on with
        | some d =>
          if d ≠ "" then
            match add_sub_edge c1 d group_id with
            | (some e, c2) => (some e, c2)
            | (none, c2) => (none, finishGid c2 group_id)
          else (none, finishGid c1 group_id)
        | none => (none, finishGid c1 group_id)
  else (none, finishGid c group_id)

/-- `CondensedNode.get_group` (src/src/condensed_node.py lines 107-117):
the stored aggregate for a recorded id, `None` for an unknown id, a raise
on a non-Group node. -/
def get_group {V : Type} (c : CN V) (group_id : String) :
    Option PyErr × Option (CVal V) :=
  if c.type = GROUP then
    if group_id ∈ c.used_group_ids then (none, alookup c.graph.values group_id)
    else (none, none)
  else (some .getGroupWrongKind, none)

/-- The `add_sub_node` loop of `add_pipeline`, threading the state and
propagating a raise. -/
def subNodeFold {V : Type} : CN V → List (String × CVal V) → Option PyErr × CN V
  | c, [] => (none, c)
  | c, (n, p) :: rest =>
    match add_sub_node c n p with
    | (some e, c1) => (some e, c1)
    | (none, c1) => subNodeFold c1 rest

/-- The closing loop of `add_pipeline`:
`for key in range(len(keys)-1): add_sub_edge(keys[key], keys[key+1])`. -/
def chainLoopPairs {V : Type} : CN V → List String → Option PyErr × CN V
  | c, [] => (none, c)
  | c, [_] => (none, c)
  | c, a :: b :: rest =>
    match add_sub_edge c a b with
    | (some e, c1) => (some e, c1)
    | (none, c1) => chainLoopPairs c1 (b :: rest)

/-- `CondensedNode.add_pipeline` (src/src/condensed_node.py lines 119-144). -/
def add_pipeline {V : Type} (c : CN V) (names : List String)
    (pipeline : List (CVal V)) : Option PyErr × CN V :=
  if c.type ≠ PIPE then (some .pipeWrongKind, c)
  else if names.isEmpty = false ∧ pipeline.length = 1 then (some .pipeSingle, c)
  else if pipeline.isEmpty then (some .pipeEmpty, c)
  else if names.length = pipeline.length then
    match subNodeFold c (names.zip pipeline) with
    | (some e, c1) => (some e, c1)
    | (none, c1) => chainLoopPairs c1 (keysOf c1.graph.values)
  else (some .pipeLenMismatch, c)

/-- The edge relation of an adjacency table: `(u, v)` is an edge when `v`
occurs in `u`'s successor list. -/
def EdgeOf (adj : Adj) (u v : String) : Prop := v ∈ succsOf adj u

instance (adj : Adj) (u v : String) : Decidable (EdgeOf adj u v) :=
  inferInstanceAs (Decidable (v ∈ succsOf adj u))

/-- Reflexive-transitive closure of `EdgeOf`: a directed walk of length ≥ 0. -/
inductive WalkR (adj : Adj) : String → String → Prop where
  | refl (u : String) : WalkR adj u u
  | head {u w v : String} : EdgeOf adj u w → WalkR adj w v → WalkR adj u v

/-- The edge relation contains a directed cycle: an edge `(u, v)` together
with a walk from `v` back to `u`. -/
def HasCycle (adj : Adj) : Prop := ∃ u v, EdgeOf adj u v ∧ WalkR adj v u

/-- Every successor named anywhere in the table is itself a key. -/
def ClosedAdj (adj : Adj) : Prop := ∀ u v, EdgeOf adj u v → u ∈ keysOf adj ∧ v ∈ keysOf adj

/-- Well-formedness of a `DAG` state.  Every state the Python code can
construct satisfies this: `values` and `adjacency_table` always get the
same keys in the same order, keys are never duplicated, and an edge is
only ever appended between existing keys. -/
def Wf {V : Type} (g : DAG V) : Prop :=
  keysOf g.values = keysOf g.adjacency_table ∧
  (keysOf g.values).Nodup ∧
  ∀ p ∈ g.adjacency_table, ∀ c ∈ p.2, c ∈ keysOf g.adjacency_table

instance {V : Type} (g : DAG V) : Decidable (Wf g) :=
  decidable_of_iff (keysOf g.values = keysOf g.adjacency_table ∧
    (keysOf g.values).Nodup ∧
    ∀ p ∈ g.adjacency_table, ∀ c ∈ p.2, c ∈ keysOf g.adjacency_table) Iff.rfl

/-- DFS invariant: a finished ("black") node — visited but no longer on the
recursion stack — only has finished successors. -/
def Safe (adj : Adj) (vis rs : List String) : Prop :=
  ∀ u, u ∈ vis → u ∉ rs → ∀ c, EdgeOf adj u c → c ∈ vis ∧ c ∉ rs

/-- DFS invariant: no finished node lies on a directed cycle. -/
def NBC (adj : Adj) (vis rs : List String) : Prop :=
  ∀ u, u ∈ vis → u ∉ rs → ∀ c, EdgeOf adj u c → ¬ WalkR adj c u

/-- The combined invariant carried by `_detect_cycle`'s visited set and
recursion stack. -/
def DcInv (adj : Adj) (vis rs : List String) : Prop :=
  (∀ x ∈ rs, x ∈ vis) ∧ Safe adj vis rs ∧ NBC adj vis rs

/-- The recursion stack read bottom-up is a chain of edges: each stack
entry has an edge to the entry pushed after it. -/
def chainR (adj : Adj) : List String → Prop
  | [] => True
  | [_] => True
  | a :: b :: rest => EdgeOf adj b a ∧ chainR adj (b :: rest)

/-- Number of keys of `adj` not yet visited; the DFS recursion-depth
measure used to discharge the fuel. -/
def unvis (adj : Adj) (vis : List String) : Nat :=
  ((keysOf adj).filter (fun k => decide (k ∉ vis))).length

/-- Interface of `_detect_cycle` on a `False` return: the recursion stack is
restored, the visited set grows monotonically within the graph's keys, and
the DFS invariant is preserved. -/
def NodeFalseProp (adj : Adj)
    (dc : String → List String → List String → Bool × List String × List String) : Prop :=
  ∀ v vis rs vis' rs', dc v vis rs = (false, vis', rs') →
    DcInv adj vis rs → v ∉ vis → v ∈ keysOf adj →
    rs' = rs ∧ (∀ x ∈ vis, x ∈ vis') ∧ v ∈ vis' ∧
      (∀ x ∈ vis', x ∈ vis ∨ x ∈ keysOf adj) ∧ DcInv adj vis' rs

/-- Interface of `_detect_cycle` on a `True` return under sufficient fuel:
a directed cycle really exists. -/
def NodeTrueProp (adj : Adj) (f : Nat)
    (dc : String → List String → List String → Bool × List String × List String) : Prop :=
  ∀ v vis rs res, dc v vis rs = res → res.1 = true →
    f > unvis adj vis → DcInv adj vis rs → chainR adj (v :: rs) →
    v ∉ vis → v ∈ keysOf adj → HasCycle adj

/-- The output property of `topological_sort`: every successor of a listed
node occurs strictly later in the list. -/
def TopoOrdered (adj : Adj) (l : List String) : Prop :=
  ∀ l1 u l2, l = l1 ++ u :: l2 → ∀ w, EdgeOf adj u w → w ∈ l2

/-- Interface of `_topological_sort` under sufficient fuel, with the ghost
list `G` of currently gray ancestors (each with a walk to `v`). -/
def TsProp (adj : Adj) (f : Nat)
    (ts : String → List String → List String → List String × List String) : Prop :=
  ∀ (v : String) (vis stack G vis' stack' : List String),
    ts v vis stack = (vis', stack') →
    f > unvis adj vis → v ∈ keysOf adj → v ∉ vis →
    (∀ g ∈ G, WalkR adj g v) →
    (∀ x, x ∈ vis ↔ x ∈ stack ∨ x ∈ G) →
    stack.Nodup → TopoOrdered adj stack →
    ∃ S, stack' = S ++ stack ∧
      (∀ x, x ∈ vis' ↔ x ∈ stack' ∨ x ∈ G) ∧
      stack'.Nodup ∧ TopoOrdered adj stack' ∧
      (∀ x ∈ S, x ∉ vis) ∧ v ∈ S ∧ (∀ x ∈ S, x ∈ keysOf adj) ∧
      (∀ x ∈ vis, x ∈ vis') ∧ (∀ x ∈ vis', x ∈ vis ∨ x ∈ keysOf adj)

/-- The graph states reachable from the empty `DAG` through sequences of
`add_node` calls and successful (non-raising) `add_edge` calls. -/
inductive ReachDAG {V : Type} : DAG V → Prop where
  | empty : ReachDAG (DAG.empty V)
  | node {g : DAG V} (n : String) (p : V) : ReachDAG g → ReachDAG (add_node g n p)
  | edge {g : DAG V} (s d : String) : ReachDAG g → (add_edge g s d).1 = none →
      ReachDAG (add_edge g s d).2

/-- The adjacency table of a linear chain: each key points to the next,
the last points to nothing.  Pipeline-kind condensed nodes maintain their
adjacency table in exactly this shape. -/
def chainTable : List String → Adj
  | [] => []
  | [k] => [(k, [])]
  | k :: k' :: rest => (k, [k']) :: chainTable (k' :: rest)

/-- The invariant of every reachable condensed-node state: the wrapped
graph is well-formed and acyclic, and a Pipeline-kind node's adjacency
table is exactly the linear chain over its keys. -/
def CNInv {V : Type} (c : CN V) : Prop :=
  Wf c.graph ∧ ¬ HasCycle c.graph.adjacency_table ∧
    (c.type = PIPE → c.graph.adjacency_table = chainTable (keysOf c.graph.values))

/-- The condensed-node states reachable from a freshly constructed node of
any kind through individually successful `add_sub_node`, non-Pipeline
`add_sub_edge`, `add_group` and `add_pipeline` calls. -/
inductive ReachCN {V : Type} : CN V → Prop where
  | make (name ntype : String) (c : CN V) : CN.make V name ntype = some c → ReachCN c
  | subnode {c : CN V} (n : String) (obj : CVal V) : ReachCN c →
      (add_sub_node c n obj).1 = none → ReachCN (add_sub_node c n obj).2
  | subedge {c : CN V} (s d : String) : ReachCN c → c.type ≠ PIPE →
      (add_sub_edge c s d).1 = none → ReachCN (add_sub_edge c s d).2
  | group {c : CN V} (gid : String) (dep : Option String) (names : List String)
      (grp : List V) : ReachCN c → (add_group c gid dep names grp).1 = none →
      ReachCN (add_group c gid dep names grp).2
  | pipeline {c : CN V} (names : List String) (ps : List (CVal V)) : ReachCN c →
      (add_pipeline c names ps).1 = none → ReachCN (add_pipeline c names ps).2

/-- The adjacency table a clean `add_group` leaves behind: the fresh
`gid` key with no successors, plus the `dep → gid` edge when a dependency
is given. -/
def groupAdjAfter (adj : Adj) (gid : String) (dep : Option String) : Adj :=
  match dep with
  | none => adj ++ [(gid, [])]
  | some x => setA (adj ++ [(gid, [])]) x (succsOf adj x ++ [gid])

/-- The two-node graph "a", "b" used in concrete checks. -/
def gAB : DAG Nat := add_node (add_node (DAG.empty Nat) "a" 0) "b" 0

/-- `gAB` after a successful `add_edge("a","b")`. -/
def gABe : DAG Nat := (add_edge gAB "a" "b").2

/-- The one-node graph "x" used in concrete checks. -/
def gX : DAG Nat := add_node (DAG.empty Nat) "x" 0

/-- A concrete well-formed cyclic graph (not reachable through `add_edge`,
used only to exercise `detect_cycle` on the `true` side). -/
def gCyc : DAG Nat :=
  { values := [("a", 0), ("b", 0)], adjacency_table := [("a", ["b"]), ("b", ["a"])] }

/-- A freshly constructed Pipeline-kind condensed node. -/
def cnPipe : CN Nat :=
  { type := PIPE, name := "CN3", graph := DAG.empty (CVal Nat), used_group_ids := [] }

/-- `cnPipe` after the two `add_sub_node` calls "a", "b" (auto-chained). -/
def cnPipeAB : CN Nat :=
  (add_sub_node (add_sub_node cnPipe "a" (CVal.obj 1)).2 "b" (CVal.obj 2)).2

/-- A freshly constructed Group-kind condensed node. -/
def cnGroup : CN Nat :=
  { type := GROUP, name := "CN", graph := DAG.empty (CVal Nat), used_group_ids := [] }

/-! ## Theorems -/

theorem keysOf_nil {α : Type _} : keysOf ([] : List (String × α)) = [] := rfl

theorem keysOf_cons {α : Type _} (k : String) (v : α) (l : List (String × α)) :
    keysOf ((k, v) :: l) = k :: keysOf l := rfl

theorem alookup_eq_none {α : Type _} (l : List (String × α)) (k : String) :
    alookup l k = none ↔ k ∉ keysOf l := by
  induction l with
  | nil => simp [alookup, keysOf_nil]
  | cons p rest ih =>
    obtain ⟨k', v⟩ := p
    rw [keysOf_cons]
    by_cases h : k' = k
    · subst h
      simp [alookup]
    · have h' : ¬ k = k' := fun hh => h hh.symm
      simp [alookup, h, h', ih]

theorem alookup_isSome {α : Type _} (l : List (String × α)) (k : String) :
    (alookup l k).isSome = true ↔ k ∈ keysOf l := by
  rcases h : alookup l k with _ | v
  · simp [(alookup_eq_none l k).1 h]
  · have : ¬ alookup l k = none := by simp [h]
    rw [alookup_eq_none] at this
    simp [h, not_not.1 this]

theorem alookup_mem {α : Type _} {l : List (String × α)} {k : String} {v : α}
    (h : alookup l k = some v) : (k, v) ∈ l := by
  induction l with
  | nil => simp [alookup] at h
  | cons p rest ih =>
    obtain ⟨k', w⟩ := p
    by_cases hk : k' = k
    · subst hk
      simp [alookup] at h
      simp [h]
    · simp [alookup, hk] at h
      exact List.mem_cons_of_mem _ (ih h)

theorem setA_of_not_mem {α : Type _} {l : List (String × α)} {k : String} (v : α)
    (h : k ∉ keysOf l) : setA l k v = l ++ [(k, v)] := by
  induction l with
  | nil => simp [setA]
  | cons p rest ih =>
    obtain ⟨k', w⟩ := p
    rw [keysOf_cons] at h
    have h1 : ¬ k' = k := fun hh => h (hh ▸ List.mem_cons_self _ _)
    have h2 : k ∉ keysOf rest := fun hh => h (List.mem_cons_of_mem _ hh)
    simp [setA, h1, ih h2]

theorem keysOf_append {α : Type _} (l₁ l₂ : List (String × α)) :
    keysOf (l₁ ++ l₂) = keysOf l₁ ++ keysOf l₂ := by
  simp [keysOf]

theorem keysOf_setA_of_mem {α : Type _} {l : List (String × α)} {k : String} (v : α)
    (h : k ∈ keysOf l) : keysOf (setA l k v) = keysOf l := by
  induction l with
  | nil => simp [keysOf_nil] at h
  | cons p rest ih =>
    obtain ⟨k', w⟩ := p
    by_cases hk : k' = k
    · subst hk
      simp [setA, keysOf_cons]
    · rw [keysOf_cons] at h
      have h2 : k ∈ keysOf rest := by
        rcases List.mem_cons.1 h with h' | h'
        · exact absurd h'.symm hk
        · exact h'
      simp [setA, hk, keysOf_cons, ih h2]

theorem alookup_setA_self {α : Type _} (l : List (String × α)) (k : String) (v : α) :
    alookup (setA l k v) k = some v := by
  induction l with
  | nil => simp [setA, alookup]
  | cons p rest ih =>
    obtain ⟨k', w⟩ := p
    by_cases hk : k' = k <;> simp [setA, hk, alookup, ih]

theorem alookup_setA_ne {α : Type _} (l : List (String × α)) {k k' : String} (v : α)
    (h : k' ≠ k) : alookup (setA l k v) k' = alookup l k' := by
  induction l with
  | nil => simp [setA, alookup, Ne.symm h]
  | cons p rest ih =>
    obtain ⟨k₀, w⟩ := p
    by_cases hk : k₀ = k
    · subst hk
      simp [setA, alookup, Ne.symm h]
    · simp [setA, hk, alookup, ih]

theorem alookup_append_left {α : Type _} {l₁ : List (String × α)} (l₂ : List (String × α))
    {k : String} {v : α} (h : alookup l₁ k = some v) :
    alookup (l₁ ++ l₂) k = some v := by
  induction l₁ with
  | nil => simp [alookup] at h
  | cons p rest ih =>
    obtain ⟨k', w⟩ := p
    by_cases hk : k' = k
    · subst hk
      simp [alookup] at h ⊢
      exact h
    · simp [alookup, hk] at h ⊢
      exact ih h

theorem alookup_append_right {α : Type _} {l₁ : List (String × α)} (l₂ : List (String × α))
    {k : String} (h : k ∉ keysOf l₁) :
    alookup (l₁ ++ l₂) k = alookup l₂ k := by
  induction l₁ with
  | nil => simp
  | cons p rest ih =>
    obtain ⟨k', w⟩ := p
    rw [keysOf_cons] at h
    have h1 : ¬ k' = k := fun hh => h (hh ▸ List.mem_cons_self _ _)
    have h2 : k ∉ keysOf rest := fun hh => h (List.mem_cons_of_mem _ hh)
    simp [alookup, h1, ih h2]

theorem WalkR.snoc {adj : Adj} {a b c : String}
    (w : WalkR adj a b) (e : EdgeOf adj b c) : WalkR adj a c := by
  induction w with
  | refl => exact WalkR.head e (WalkR.refl c)
  | head e' _ ih => exact WalkR.head e' (ih e)

theorem edge_src_mem {adj : Adj} {u v : String} (e : EdgeOf adj u v) :
    u ∈ keysOf adj := by
  unfold EdgeOf succsOf at e
  rcases h : alookup adj u with _ | l
  · rw [h] at e; simp at e
  · rw [← alookup_isSome]; simp [h]

theorem closedAdj_of_wf {V : Type} {g : DAG V} (h : Wf g) :
    ClosedAdj g.adjacency_table := by
  intro u v e
  refine ⟨edge_src_mem e, ?_⟩
  unfold EdgeOf succsOf at e
  rcases hl : alookup g.adjacency_table u with _ | l
  · rw [hl] at e; simp at e
  · rw [hl] at e
    simp at e
    exact h.2.2 (u, l) (alookup_mem hl) v e

theorem safe_escape {adj : Adj} {vis rs : List String} (hs : Safe adj vis rs)
    {u w : String} (hu : u ∈ vis) (hnr : u ∉ rs) (hw : WalkR adj u w) :
    w ∈ vis ∧ w ∉ rs := by
  induction hw with
  | refl => exact ⟨hu, hnr⟩
  | head e _ ih =>
    obtain ⟨h1, h2⟩ := hs _ hu hnr _ e
    exact ih h1 h2

theorem chainR_walk {adj : Adj} : ∀ {rs₀ : List String} {v c : String},
    chainR adj (v :: rs₀) → c ∈ v :: rs₀ → WalkR adj c v := by
  intro rs₀
  induction rs₀ with
  | nil =>
    intro v c _ hc
    have hcv : c = v := by simpa using hc
    subst hcv
    exact WalkR.refl _
  | cons b rest ih =>
    intro v c hch hc
    have hch2 : EdgeOf adj b v ∧ chainR adj (b :: rest) := hch
    rcases List.mem_cons.1 hc with h | h
    · subst h
      exact WalkR.refl _
    · exact WalkR.snoc (ih hch2.2 h) hch2.1

theorem filter_length_mono {p q : String → Bool}
    (h : ∀ a, p a = true → q a = true) :
    ∀ l : List String, (l.filter p).length ≤ (l.filter q).length := by
  intro l
  induction l with
  | nil => simp
  | cons a rest ih =>
    rw [List.filter_cons, List.filter_cons]
    by_cases hp : p a = true
    · rw [if_pos hp, if_pos (h a hp)]
      simpa using ih
    · rw [if_neg hp]
      split
      · rw [List.length_cons]
        exact Nat.le_succ_of_le ih
      · exact ih

theorem unvis_mono {adj : Adj} {vis vis' : List String}
    (h : ∀ x ∈ vis, x ∈ vis') : unvis adj vis' ≤ unvis adj vis := by
  apply filter_length_mono
  intro a ha
  simp only [decide_eq_true_eq] at ha ⊢
  exact fun hm => ha (h a hm)

theorem filter_unvis_cons_lt {vis : List String} {v : String} (hnv : v ∉ vis) :
    ∀ K : List String, v ∈ K →
      (K.filter (fun k => decide (k ∉ v :: vis))).length
        < (K.filter (fun k => decide (k ∉ vis))).length := by
  intro K hv
  induction K with
  | nil => simp at hv
  | cons a rest ih =>
    rw [List.filter_cons, List.filter_cons]
    have hmono := @filter_length_mono
      (fun k => decide (k ∉ v :: vis)) (fun k => decide (k ∉ vis))
      (by
        intro x hx
        simp only [decide_eq_true_eq, List.mem_cons] at hx ⊢
        exact fun hm => hx (Or.inr hm)) rest
    by_cases hav : a = v
    · subst hav
      rw [if_neg (by simp), if_pos (by simpa using hnv), List.length_cons]
      omega
    · by_cases ham : a ∈ vis
      · rw [if_neg (by simp [ham]), if_neg (by simpa using ham)]
        rcases List.mem_cons.1 hv with h | h
        · exact absurd h.symm hav
        · exact ih h
      · have hav2 : a ∉ v :: vis := by
          intro hmem
          rcases List.mem_cons.1 hmem with h | h
          · exact hav h
          · exact ham h
        rw [if_pos (by simpa using hav2), if_pos (by simpa using ham),
          List.length_cons, List.length_cons]
        rcases List.mem_cons.1 hv with h | h
        · exact absurd h.symm hav
        · exact Nat.succ_lt_succ (ih h)

theorem unvis_cons_lt {adj : Adj} {vis : List String} {v : String}
    (hv : v ∈ keysOf adj) (hnv : v ∉ vis) :
    unvis adj (v :: vis) < unvis adj vis :=
  filter_unvis_cons_lt hnv (keysOf adj) hv

theorem dcFold_true
    (dc : String → List String → List String → Bool × List String × List String)
    (cs : List String) (vis rs : List String) :
    List.foldl (dcStep dc) (true, vis, rs) cs = (true, vis, rs) := by
  induction cs with
  | nil => rfl
  | cons c rest ih => simpa [dcStep] using ih

theorem DcInv_push {adj : Adj} {vis rs : List String} {v : String}
    (h : DcInv adj vis rs) (hv : v ∉ vis) : DcInv adj (v :: vis) (v :: rs) := by
  obtain ⟨h1, h2, h3⟩ := h
  refine ⟨?_, ?_, ?_⟩
  · intro x hx
    rcases List.mem_cons.1 hx with h' | h'
    · exact h' ▸ List.mem_cons_self _ _
    · exact List.mem_cons_of_mem _ (h1 x h')
  · intro u hu hnr c e
    have huv : u ≠ v := fun hh => hnr (hh ▸ List.mem_cons_self _ _)
    have hu' : u ∈ vis := by
      rcases List.mem_cons.1 hu with h' | h'
      · exact absurd h' huv
      · exact h'
    have hnr' : u ∉ rs := fun hh => hnr (List.mem_cons_of_mem _ hh)
    obtain ⟨hc1, hc2⟩ := h2 u hu' hnr' c e
    refine ⟨List.mem_cons_of_mem _ hc1, ?_⟩
    intro hc
    rcases List.mem_cons.1 hc with h' | h'
    · exact hv (h' ▸ hc1)
    · exact hc2 h'
  · intro u hu hnr c e hw
    have huv : u ≠ v := fun hh => hnr (hh ▸ List.mem_cons_self _ _)
    have hu' : u ∈ vis := by
      rcases List.mem_cons.1 hu with h' | h'
      · exact absurd h' huv
      · exact h'
    have hnr' : u ∉ rs := fun hh => hnr (List.mem_cons_of_mem _ hh)
    exact h3 u hu' hnr' c e hw

theorem DcInv_pop {adj : Adj} {vis rs : List String} {v : String}
    (h : DcInv adj vis (v :: rs)) (hv : v ∈ vis)
    (hsucc : ∀ c, EdgeOf adj v c → c ∈ vis ∧ c ∉ v :: rs) : DcInv adj vis rs := by
  obtain ⟨h1, h2, h3⟩ := h
  refine ⟨?_, ?_, ?_⟩
  · exact fun x hx => h1 x (List.mem_cons_of_mem _ hx)
  · intro u hu hnr c e
    by_cases huv : u = v
    · subst huv
      obtain ⟨hc1, hc2⟩ := hsucc c e
      exact ⟨hc1, fun hc => hc2 (List.mem_cons_of_mem _ hc)⟩
    · have hnr' : u ∉ v :: rs := by
        intro hh
        rcases List.mem_cons.1 hh with h' | h'
        · exact huv h'
        · exact hnr h'
      obtain ⟨hc1, hc2⟩ := h2 u hu hnr' c e
      exact ⟨hc1, fun hc => hc2 (List.mem_cons_of_mem _ hc)⟩
  · intro u hu hnr c e hw
    by_cases huv : u = v
    · subst huv
      obtain ⟨hc1, hc2⟩ := hsucc c e
      obtain ⟨hv1, hv2⟩ := safe_escape h2 hc1 hc2 hw
      exact hv2 (List.mem_cons_self _ _)
    · have hnr' : u ∉ v :: rs := by
        intro hh
        rcases List.mem_cons.1 hh with h' | h'
        · exact huv h'
        · exact hnr h'
      exact h3 u hu hnr' c e hw

theorem dcKids_false {adj : Adj}
    {dc : String → List String → List String → Bool × List String × List String}
    (hdc : NodeFalseProp adj dc) :
    ∀ (cs vis : List String) {rsAll vis' rs2 : List String},
      DcInv adj vis rsAll → (∀ c ∈ cs, c ∈ keysOf adj) →
      List.foldl (dcStep dc) (false, vis, rsAll) cs = (false, vis', rs2) →
      rs2 = rsAll ∧ (∀ x ∈ vis, x ∈ vis') ∧
        (∀ x ∈ vis', x ∈ vis ∨ x ∈ keysOf adj) ∧
        DcInv adj vis' rsAll ∧ (∀ c ∈ cs, c ∈ vis' ∧ c ∉ rsAll) := by
  intro cs
  induction cs with
  | nil =>
    intro vis rsAll vis' rs2 hinv _ hfold
    simp at hfold
    obtain ⟨h1, h2⟩ := hfold
    subst h1; subst h2
    exact ⟨rfl, fun x hx => hx, fun x hx => Or.inl hx, hinv, by simp⟩
  | cons c rest ih =>
    intro vis rsAll vis' rs2 hinv hkeys hfold
    rw [List.foldl_cons] at hfold
    by_cases hcv : c ∈ vis
    · by_cases hcr : c ∈ rsAll
      · rw [show dcStep dc (false, vis, rsAll) c = (true, vis, rsAll) by
          simp [dcStep, hcv, hcr]] at hfold
        rw [dcFold_true] at hfold
        exact absurd hfold (by simp)
      · rw [show dcStep dc (false, vis, rsAll) c = (false, vis, rsAll) by
          simp [dcStep, hcv, hcr]] at hfold
        obtain ⟨h1, h2, h3, h4, h5⟩ := ih vis hinv
          (fun x hx => hkeys x (List.mem_cons_of_mem _ hx)) hfold
        refine ⟨h1, h2, h3, h4, ?_⟩
        intro x hx
        rcases List.mem_cons.1 hx with h' | h'
        · exact h' ▸ ⟨h2 c hcv, hcr⟩
        · exact h5 x h'
    · rw [show dcStep dc (false, vis, rsAll) c = dc c vis rsAll by
        simp [dcStep, hcv]] at hfold
      rcases hres : dc c vis rsAll with ⟨b, visA, rsA⟩
      rw [hres] at hfold
      cases b with
      | true =>
        rw [dcFold_true] at hfold
        exact absurd hfold (by simp)
      | false =>
        obtain ⟨hr, hmono, hcm, hbound, hinvA⟩ :=
          hdc c vis rsAll visA rsA hres hinv hcv (hkeys c (List.mem_cons_self _ _))
        subst hr
        obtain ⟨h1, h2, h3, h4, h5⟩ := ih visA hinvA
          (fun x hx => hkeys x (List.mem_cons_of_mem _ hx)) hfold
        have hcnr : c ∉ rsA := fun hh => hcv (hinv.1 c hh)
        refine ⟨h1, fun x hx => h2 x (hmono x hx), ?_, h4, ?_⟩
        · intro x hx
          rcases h3 x hx with h' | h'
          · rcases hbound x h' with h'' | h''
            · exact Or.inl h''
            · exact Or.inr h''
          · exact Or.inr h'
        · intro x hx
          rcases List.mem_cons.1 hx with h' | h'
          · exact h' ▸ ⟨h2 c hcm, hcnr⟩
          · exact h5 x h'

theorem dcNode_false_prop (adj : Adj) (hcl : ClosedAdj adj) :
    ∀ f : Nat, NodeFalseProp adj (fun c v r => dcNode adj f c v r) := by
  intro f
  induction f with
  | zero =>
    intro v vis rs vis' rs' h
    simp [dcNode] at h
  | succ f ihf =>
    intro v vis rs vis' rs' h hinv hv hk
    simp only [dcNode] at h
    rcases hfold : List.foldl (dcStep fun c vis rs => dcNode adj f c vis rs)
        (false, v :: vis, v :: rs) (succsOf adj v) with ⟨b, visB, rsB⟩
    rw [hfold] at h
    cases b with
    | true => simp at h
    | false =>
      simp at h
      obtain ⟨hvis, hrs⟩ := h
      obtain ⟨h1, h2, h3, h4, h5⟩ := dcKids_false ihf (succsOf adj v) (v :: vis)
        (DcInv_push hinv hv) (fun c hc => (hcl v c hc).2) hfold
      subst h1
      subst hvis
      have hrs2 : rs' = rs := by
        rw [← hrs, List.erase_cons_head]
      have hvm : v ∈ visB := h2 v (List.mem_cons_self _ _)
      refine ⟨hrs2, fun x hx => h2 x (List.mem_cons_of_mem _ hx), hvm, ?_, ?_⟩
      · intro x hx
        rcases h3 x hx with h' | h'
        · rcases List.mem_cons.1 h' with h'' | h''
          · exact Or.inr (h'' ▸ hk)
          · exact Or.inl h''
        · exact Or.inr h'
      · exact DcInv_pop h4 hvm (fun c e => h5 c e)

theorem dcKids_true {adj : Adj} {f : Nat}
    {dc : String → List String → List String → Bool × List String × List String}
    (hdcF : NodeFalseProp adj dc) (hdcT : NodeTrueProp adj f dc)
    (hcl : ClosedAdj adj) :
    ∀ (cs vis : List String) {v : String} {rs₀ : List String}
      {res : Bool × List String × List String},
      f > unvis adj vis → DcInv adj vis (v :: rs₀) → chainR adj (v :: rs₀) →
      (∀ c ∈ cs, EdgeOf adj v c) →
      List.foldl (dcStep dc) (false, vis, v :: rs₀) cs = res → res.1 = true →
      HasCycle adj := by
  intro cs
  induction cs with
  | nil =>
    intro vis v rs₀ res _ _ _ _ hfold htrue
    simp at hfold
    rw [← hfold] at htrue
    simp at htrue
  | cons c rest ih =>
    intro vis v rs₀ res hfuel hinv hch hcs hfold htrue
    rw [List.foldl_cons] at hfold
    by_cases hcv : c ∈ vis
    · by_cases hcr : c ∈ v :: rs₀
      · exact ⟨v, c, hcs c (List.mem_cons_self _ _), chainR_walk hch hcr⟩
      · rw [show dcStep dc (false, vis, v :: rs₀) c = (false, vis, v :: rs₀) by
          simp [dcStep, hcv, hcr]] at hfold
        exact ih vis hfuel hinv hch
          (fun x hx => hcs x (List.mem_cons_of_mem _ hx)) hfold htrue
    · rw [show dcStep dc (false, vis, v :: rs₀) c = dc c vis (v :: rs₀) by
        simp [dcStep, hcv]] at hfold
      rcases hres : dc c vis (v :: rs₀) with ⟨b, visA, rsA⟩
      rw [hres] at hfold
      cases b with
      | true =>
        have hchc : chainR adj (c :: v :: rs₀) :=
          ⟨hcs c (List.mem_cons_self _ _), hch⟩
        exact hdcT c vis (v :: rs₀) (true, visA, rsA) hres rfl hfuel hinv hchc hcv
          (hcl v c (hcs c (List.mem_cons_self _ _))).2
      | false =>
        obtain ⟨hr, hmono, hcm, hbound, hinvA⟩ :=
          hdcF c vis (v :: rs₀) visA rsA hres hinv hcv
            (hcl v c (hcs c (List.mem_cons_self _ _))).2
        subst hr
        exact ih visA (Nat.lt_of_le_of_lt (unvis_mono hmono) hfuel) hinvA hch
          (fun x hx => hcs x (List.mem_cons_of_mem _ hx)) hfold htrue

theorem dcNode_true_prop (adj : Adj) (hcl : ClosedAdj adj) :
    ∀ f : Nat, NodeTrueProp adj f (fun c v r => dcNode adj f c v r) := by
  intro f
  induction f with
  | zero =>
    intro v vis rs res _ _ hfuel
    exact absurd hfuel (by omega)
  | succ f ihf =>
    intro v vis rs res hres htrue hfuel hinv hch hv hk
    simp only [dcNode] at hres
    rcases hfold : List.foldl (dcStep fun c vis rs => dcNode adj f c vis rs)
        (false, v :: vis, v :: rs) (succsOf adj v) with ⟨b, visB, rsB⟩
    rw [hfold] at hres
    cases b with
    | false =>
      rw [← hres] at htrue
      simp at htrue
    | true =>
      have hfuel' : f > unvis adj (v :: vis) := by
        have h1 := unvis_cons_lt hk hv
        omega
      exact dcKids_true (dcNode_false_prop adj hcl f) ihf hcl (succsOf adj v) (v :: vis)
        hfuel' (DcInv_push hinv hv) hch (fun c hc => hc) hfold rfl

theorem dcRoots_sound {adj : Adj} (hcl : ClosedAdj adj) (f : Nat) :
    ∀ (roots vis : List String), (∀ r ∈ roots, r ∈ keysOf adj) →
      DcInv adj vis [] → f > unvis adj vis →
      dcRoots adj f roots vis [] = true → HasCycle adj := by
  intro roots
  induction roots with
  | nil =>
    intro vis _ _ _ h
    simp [dcRoots] at h
  | cons v rest ih =>
    intro vis hk hinv hfuel h
    simp only [dcRoots] at h
    by_cases hv : v ∈ vis
    · rw [if_pos hv] at h
      exact ih vis (fun r hr => hk r (List.mem_cons_of_mem _ hr)) hinv hfuel h
    · rw [if_neg hv] at h
      rcases hres : dcNode adj f v vis [] with ⟨b, visA, rsA⟩
      rw [hres] at h
      cases b with
      | true =>
        exact dcNode_true_prop adj hcl f v vis [] (true, visA, rsA) hres rfl hfuel hinv
          trivial hv (hk v (List.mem_cons_self _ _))
      | false =>
        obtain ⟨hr, hmono, hvm, hbound, hinvA⟩ :=
          dcNode_false_prop adj hcl f v vis [] visA rsA hres hinv hv
            (hk v (List.mem_cons_self _ _))
        subst hr
        exact ih visA (fun r hr => hk r (List.mem_cons_of_mem _ hr)) hinvA
          (Nat.lt_of_le_of_lt (unvis_mono hmono) hfuel) h

theorem dcRoots_complete {adj : Adj} (hcl : ClosedAdj adj) (f : Nat) :
    ∀ (roots vis : List String), (∀ r ∈ roots, r ∈ keysOf adj) →
      DcInv adj vis [] →
      (∃ z w, EdgeOf adj z w ∧ WalkR adj w z ∧ (z ∈ vis ∨ z ∈ roots)) →
      dcRoots adj f roots vis [] = true := by
  intro roots
  induction roots with
  | nil =>
    rintro vis _ hinv ⟨z, w, he, hw, hz⟩
    rcases hz with hz | hz
    · exact absurd hw (hinv.2.2 z hz (by simp) w he)
    · simp at hz
  | cons v rest ih =>
    intro vis hk hinv hcyc
    simp only [dcRoots]
    by_cases hv : v ∈ vis
    · rw [if_pos hv]
      apply ih vis (fun r hr => hk r (List.mem_cons_of_mem _ hr)) hinv
      obtain ⟨z, w, he, hw, hz⟩ := hcyc
      refine ⟨z, w, he, hw, ?_⟩
      rcases hz with hz | hz
      · exact Or.inl hz
      · rcases List.mem_cons.1 hz with h' | h'
        · exact Or.inl (h' ▸ hv)
        · exact Or.inr h'
    · rw [if_neg hv]
      rcases hres : dcNode adj f v vis [] with ⟨b, visA, rsA⟩
      cases b with
      | true => rfl
      | false =>
        obtain ⟨hr, hmono, hvm, hbound, hinvA⟩ :=
          dcNode_false_prop adj hcl f v vis [] visA rsA hres hinv hv
            (hk v (List.mem_cons_self _ _))
        subst hr
        apply ih visA (fun r hr => hk r (List.mem_cons_of_mem _ hr)) hinvA
        obtain ⟨z, w, he, hw, hz⟩ := hcyc
        refine ⟨z, w, he, hw, ?_⟩
        rcases hz with hz | hz
        · exact Or.inl (hmono z hz)
        · rcases List.mem_cons.1 hz with h' | h'
          · exact Or.inl (h' ▸ hvm)
          · exact Or.inr h'

theorem unvis_nil (adj : Adj) : unvis adj [] = (keysOf adj).length := by
  unfold unvis
  simp

theorem keysOf_length {α : Type _} (l : List (String × α)) :
    (keysOf l).length = l.length := by
  simp [keysOf]

theorem detect_cycle_iff {V : Type} {g : DAG V} (hwf : Wf g) :
    detect_cycle g = true ↔ HasCycle g.adjacency_table := by
  have hcl := closedAdj_of_wf hwf
  have hfuel : g.values.length + 1 > unvis g.adjacency_table [] := by
    rw [unvis_nil]
    have h1 : (keysOf g.adjacency_table).length = (keysOf g.values).length := by
      rw [hwf.1]
    rw [h1, keysOf_length]
    omega
  have hroots : ∀ r ∈ keysOf g.values, r ∈ keysOf g.adjacency_table := by
    intro r hr
    rw [← hwf.1]
    exact hr
  have hinv : DcInv g.adjacency_table [] [] := by
    refine ⟨by simp, ?_, ?_⟩
    · intro u hu
      simp at hu
    · intro u hu
      simp at hu
  constructor
  · intro h
    exact dcRoots_sound hcl _ _ _ hroots hinv hfuel h
  · rintro ⟨z, w, he, hw⟩
    apply dcRoots_complete hcl _ _ _ hroots hinv
    refine ⟨z, w, he, hw, Or.inr ?_⟩
    rw [hwf.1]
    exact edge_src_mem he

theorem not_hasCycle_of_detect_false {V : Type} {g : DAG V} (hwf : Wf g)
    (h : detect_cycle g = false) : ¬ HasCycle g.adjacency_table := by
  intro hc
  rw [← detect_cycle_iff hwf] at hc
  rw [h] at hc
  exact absurd hc (by simp)

theorem topoOrdered_cons {adj : Adj} {stack : List String} {v : String}
    (h : TopoOrdered adj stack) (hsucc : ∀ w, EdgeOf adj v w → w ∈ stack) :
    TopoOrdered adj (v :: stack) := by
  intro l1 u l2 heq w e
  cases l1 with
  | nil =>
    simp at heq
    obtain ⟨h1, h2⟩ := heq
    subst h1
    subst h2
    exact hsucc w e
  | cons a l1' =>
    simp at heq
    obtain ⟨h1, h2⟩ := heq
    exact h l1' u l2 h2 w e

theorem tsKids_lemma {adj : Adj} {f : Nat}
    {ts : String → List String → List String → List String × List String}
    (hts : TsProp adj f ts) (hcl : ClosedAdj adj)
    {v : String} {G : List String} (hGv : ∀ g ∈ G, WalkR adj g v) :
    ∀ (cs vis stack : List String) {vis₂ stack₂ : List String},
      f > unvis adj vis →
      (∀ c ∈ cs, EdgeOf adj v c) →
      (∀ x, x ∈ vis ↔ x ∈ stack ∨ x ∈ v :: G) →
      stack.Nodup → TopoOrdered adj stack →
      List.foldl (tsStep ts) (vis, stack) cs = (vis₂, stack₂) →
      ∃ S, stack₂ = S ++ stack ∧
        (∀ x, x ∈ vis₂ ↔ x ∈ stack₂ ∨ x ∈ v :: G) ∧
        stack₂.Nodup ∧ TopoOrdered adj stack₂ ∧
        (∀ x ∈ S, x ∉ vis) ∧ (∀ x ∈ S, x ∈ keysOf adj) ∧
        (∀ x ∈ vis, x ∈ vis₂) ∧ (∀ x ∈ vis₂, x ∈ vis ∨ x ∈ keysOf adj) ∧
        (∀ c ∈ cs, c ∈ vis₂) := by
  intro cs
  induction cs with
  | nil =>
    intro vis stack vis₂ stack₂ _ _ hiff hnd htopo hfold
    simp at hfold
    obtain ⟨h1, h2⟩ := hfold
    subst h1; subst h2
    exact ⟨[], by simp, hiff, hnd, htopo, by simp, by simp,
      fun x hx => hx, fun x hx => Or.inl hx, by simp⟩
  | cons c rest ih =>
    intro vis stack vis₂ stack₂ hfuel hcs hiff hnd htopo hfold
    rw [List.foldl_cons] at hfold
    by_cases hcv : c ∈ vis
    · rw [show tsStep ts (vis, stack) c = (vis, stack) by simp [tsStep, hcv]] at hfold
      obtain ⟨S, hS, hiff₂, hnd₂, htopo₂, hdisj, hkeys, hmono, hbound, hall⟩ :=
        ih vis stack hfuel (fun x hx => hcs x (List.mem_cons_of_mem _ hx))
          hiff hnd htopo hfold
      refine ⟨S, hS, hiff₂, hnd₂, htopo₂, hdisj, hkeys, hmono, hbound, ?_⟩
      intro x hx
      rcases List.mem_cons.1 hx with h' | h'
      · exact h' ▸ hmono c hcv
      · exact hall x h'
    · rw [show tsStep ts (vis, stack) c = ts c vis stack by simp [tsStep, hcv]] at hfold
      rcases hres : ts c vis stack with ⟨visA, stackA⟩
      rw [hres] at hfold
      have hGc : ∀ g ∈ v :: G, WalkR adj g c := by
        intro g hg
        rcases List.mem_cons.1 hg with h' | h'
        · exact h' ▸ WalkR.head (hcs c (List.mem_cons_self _ _)) (WalkR.refl _)
        · exact WalkR.snoc (hGv g h') (hcs c (List.mem_cons_self _ _))
      obtain ⟨S, hS, hiffA, hndA, htopoA, hdisjA, hcS, hkeysA, hmonoA, hboundA⟩ :=
        hts c vis stack (v :: G) visA stackA hres hfuel
          (hcl v c (hcs c (List.mem_cons_self _ _))).2 hcv hGc hiff hnd htopo
      obtain ⟨S₂, hS₂, hiff₂, hnd₂, htopo₂, hdisj₂, hkeys₂, hmono₂, hbound₂, hall₂⟩ :=
        ih visA stackA (Nat.lt_of_le_of_lt (unvis_mono hmonoA) hfuel)
          (fun x hx => hcs x (List.mem_cons_of_mem _ hx)) hiffA hndA htopoA hfold
      refine ⟨S₂ ++ S, by rw [hS₂, hS, List.append_assoc], hiff₂, hnd₂, htopo₂, ?_, ?_,
        fun x hx => hmono₂ x (hmonoA x hx), ?_, ?_⟩
      · intro x hx
        rcases List.mem_append.1 hx with h' | h'
        · intro hxv
          exact hdisj₂ x h' (hmonoA x hxv)
        · exact hdisjA x h'
      · intro x hx
        rcases List.mem_append.1 hx with h' | h'
        · exact hkeys₂ x h'
        · exact hkeysA x h'
      · intro x hx
        rcases hbound₂ x hx with h' | h'
        · rcases hboundA x h' with h'' | h''
          · exact Or.inl h''
          · exact Or.inr h''
        · exact Or.inr h'
      · intro x hx
        rcases List.mem_cons.1 hx with h' | h'
        · subst h'
          apply hmono₂
          rw [hiffA, hS]
          exact Or.inl (List.mem_append.2 (Or.inl hcS))
        · exact hall₂ x h'

theorem tsNode_prop (adj : Adj) (hcl : ClosedAdj adj) (hac : ¬ HasCycle adj) :
    ∀ f : Nat, TsProp adj f (fun c v s => tsNode adj f c v s) := by
  intro f
  induction f with
  | zero =>
    intro v vis stack G vis' stack' _ hfuel
    exact absurd hfuel (by omega)
  | succ f ihf =>
    intro v vis stack G vis' stack' h hfuel hk hv hGv hiff hnd htopo
    simp only [tsNode] at h
    rcases hfold : List.foldl (tsStep fun c vis stack => tsNode adj f c vis stack)
        (v :: vis, stack) (succsOf adj v) with ⟨vis₂, stack₂⟩
    rw [hfold] at h
    simp at h
    obtain ⟨h1, h2⟩ := h
    have hGv' : ∀ g ∈ G, WalkR adj g v := hGv
    have hiff' : ∀ x, x ∈ v :: vis ↔ x ∈ stack ∨ x ∈ v :: G := by
      intro x
      constructor
      · intro hx
        rcases List.mem_cons.1 hx with h' | h'
        · exact Or.inr (h' ▸ List.mem_cons_self _ _)
        · rcases (hiff x).1 h' with h'' | h''
          · exact Or.inl h''
          · exact Or.inr (List.mem_cons_of_mem _ h'')
      · intro hx
        rcases hx with h' | h'
        · exact List.mem_cons_of_mem _ ((hiff x).2 (Or.inl h'))
        · rcases List.mem_cons.1 h' with h'' | h''
          · exact h'' ▸ List.mem_cons_self _ _
          · exact List.mem_cons_of_mem _ ((hiff x).2 (Or.inr h''))
    obtain ⟨S₂, hS₂, hiff₂, hnd₂, htopo₂, hdisj₂, hkeys₂, hmono₂, hbound₂, hall₂⟩ :=
      tsKids_lemma ihf hcl hGv (succsOf adj v) (v :: vis) stack
        (by
          have := @unvis_cons_lt adj _ _ hk hv
          omega)
        (fun c hc => hc) hiff' hnd htopo hfold
    have hvstack : v ∉ stack := fun hh => hv ((hiff v).2 (Or.inl hh))
    have hvS₂ : v ∉ S₂ := fun hh => hdisj₂ v hh (List.mem_cons_self _ _)
    have hvstack₂ : v ∉ stack₂ := by
      rw [hS₂]
      intro hh
      rcases List.mem_append.1 hh with h' | h'
      · exact hvS₂ h'
      · exact hvstack h'
    have hsucc₂ : ∀ w, EdgeOf adj v w → w ∈ stack₂ := by
      intro w e
      have hw₂ : w ∈ vis₂ := hall₂ w e
      rcases (hiff₂ w).1 hw₂ with h' | h'
      · exact h'
      · rcases List.mem_cons.1 h' with h'' | h''
        · exact absurd ⟨v, w, e, h'' ▸ WalkR.refl _⟩ hac
        · exact absurd ⟨v, w, e, hGv w h''⟩ hac
    refine ⟨v :: S₂, ?_, ?_, ?_, ?_, ?_, List.mem_cons_self _ _, ?_, ?_, ?_⟩
    · rw [← h2, hS₂]
      rfl
    · intro x
      rw [← h1, ← h2]
      rw [hiff₂ x]
      constructor
      · intro hx
        rcases hx with h' | h'
        · exact Or.inl (List.mem_cons_of_mem _ h')
        · rcases List.mem_cons.1 h' with h'' | h''
          · exact Or.inl (h'' ▸ List.mem_cons_self _ _)
          · exact Or.inr h''
      · intro hx
        rcases hx with h' | h'
        · rcases List.mem_cons.1 h' with h'' | h''
          · exact Or.inr (h'' ▸ List.mem_cons_self _ _)
          · exact Or.inl h''
        · exact Or.inr (List.mem_cons_of_mem _ h')
    · rw [← h2]
      exact List.nodup_cons.2 ⟨hvstack₂, hnd₂⟩
    · rw [← h2]
      exact topoOrdered_cons htopo₂ hsucc₂
    · intro x hx
      rcases List.mem_cons.1 hx with h' | h'
      · exact h' ▸ hv
      · intro hxv
        exact hdisj₂ x h' (List.mem_cons_of_mem _ hxv)
    · intro x hx
      rcases List.mem_cons.1 hx with h' | h'
      · exact h' ▸ hk
      · exact hkeys₂ x h'
    · intro x hx
      rw [← h1]
      exact hmono₂ x (List.mem_cons_of_mem _ hx)
    · intro x hx
      rw [← h1] at hx
      rcases hbound₂ x hx with h' | h'
      · rcases List.mem_cons.1 h' with h'' | h''
        · exact Or.inr (h'' ▸ hk)
        · exact Or.inl h''
      · exact Or.inr h'

theorem tsRoots_lemma {adj : Adj} (hcl : ClosedAdj adj) (hac : ¬ HasCycle adj) (f : Nat) :
    ∀ (roots vis stack : List String) {vis₃ stack₃ : List String},
      (∀ r ∈ roots, r ∈ keysOf adj) →
      (∀ x, x ∈ vis ↔ x ∈ stack) →
      stack.Nodup → TopoOrdered adj stack → f > unvis adj vis →
      tsRoots adj f roots vis stack = (vis₃, stack₃) →
      (∀ x, x ∈ vis₃ ↔ x ∈ stack₃) ∧ stack₃.Nodup ∧ TopoOrdered adj stack₃ ∧
        (∀ r ∈ roots, r ∈ vis₃) ∧ (∀ x ∈ vis₃, x ∈ vis ∨ x ∈ keysOf adj) ∧
        (∀ x ∈ vis, x ∈ vis₃) := by
  intro roots
  induction roots with
  | nil =>
    intro vis stack vis₃ stack₃ _ hiff hnd htopo _ h
    simp [tsRoots] at h
    obtain ⟨h1, h2⟩ := h
    subst h1; subst h2
    exact ⟨hiff, hnd, htopo, by simp, fun x hx => Or.inl hx, fun x hx => hx⟩
  | cons v rest ih =>
    intro vis stack vis₃ stack₃ hk hiff hnd htopo hfuel h
    simp only [tsRoots] at h
    by_cases hv : v ∈ vis
    · rw [if_pos hv] at h
      obtain ⟨hiff₃, hnd₃, htopo₃, hroots₃, hbound₃, hmono₃⟩ :=
        ih vis stack (fun r hr => hk r (List.mem_cons_of_mem _ hr)) hiff hnd htopo hfuel h
      refine ⟨hiff₃, hnd₃, htopo₃, ?_, hbound₃, hmono₃⟩
      intro r hr
      rcases List.mem_cons.1 hr with h' | h'
      · exact h' ▸ hmono₃ v hv
      · exact hroots₃ r h'
    · rw [if_neg hv] at h
      rcases hres : tsNode adj f v vis stack with ⟨visA, stackA⟩
      rw [hres] at h
      obtain ⟨S, hS, hiffA, hndA, htopoA, hdisjA, hvS, hkeysA, hmonoA, hboundA⟩ :=
        tsNode_prop adj hcl hac f v vis stack [] visA stackA hres hfuel
          (hk v (List.mem_cons_self _ _)) hv (by simp) (by simpa using hiff) hnd htopo
      have hiffA' : ∀ x, x ∈ visA ↔ x ∈ stackA := by
        intro x
        rw [hiffA x]
        simp
      obtain ⟨hiff₃, hnd₃, htopo₃, hroots₃, hbound₃, hmono₃⟩ :=
        ih visA stackA (fun r hr => hk r (List.mem_cons_of_mem _ hr)) hiffA' hndA htopoA
          (Nat.lt_of_le_of_lt (unvis_mono hmonoA) hfuel) h
      refine ⟨hiff₃, hnd₃, htopo₃, ?_, ?_, fun x hx => hmono₃ x (hmonoA x hx)⟩
      · intro r hr
        rcases List.mem_cons.1 hr with h' | h'
        · subst h'
          apply hmono₃
          rw [hiffA']
          rw [hS]
          exact List.mem_append.2 (Or.inl hvS)
        · exact hroots₃ r h'
      · intro x hx
        rcases hbound₃ x hx with h' | h'
        · rcases hboundA x h' with h'' | h''
          · exact Or.inl h''
          · exact Or.inr h''
        · exact Or.inr h'

/-- Full correctness of `topological_sort` on well-formed acyclic graphs:
the output is a permutation of the node names, and every edge goes from an
earlier to a later position. -/
theorem topological_sort_spec {V : Type} {g : DAG V} (hwf : Wf g)
    (hac : ¬ HasCycle g.adjacency_table) :
    (topological_sort g).Perm (keysOf g.values) ∧
      TopoOrdered g.adjacency_table (topological_sort g) := by
  have hcl := closedAdj_of_wf hwf
  have hfuel : g.values.length + 1 > unvis g.adjacency_table [] := by
    rw [unvis_nil]
    have h1 : (keysOf g.adjacency_table).length = (keysOf g.values).length := by
      rw [hwf.1]
    rw [h1, keysOf_length]
    omega
  have hroots : ∀ r ∈ keysOf g.values, r ∈ keysOf g.adjacency_table := by
    intro r hr
    rw [← hwf.1]
    exact hr
  rcases hrun : tsRoots g.adjacency_table (g.values.length + 1) (keysOf g.values) [] []
    with ⟨vis₃, stack₃⟩
  obtain ⟨hiff₃, hnd₃, htopo₃, hroots₃, hbound₃, _⟩ :=
    tsRoots_lemma hcl hac (g.values.length + 1) (keysOf g.values) [] []
      hroots (by simp) (by simp) (by intro l1 u l2 heq; simp at heq) hfuel hrun
  have hts : topological_sort g = stack₃ := by
    unfold topological_sort
    rw [hrun]
  rw [hts]
  constructor
  · rw [List.perm_ext_iff_of_nodup hnd₃ hwf.2.1]
    intro a
    constructor
    · intro ha
      have : a ∈ vis₃ := (hiff₃ a).2 ha
      rcases hbound₃ a this with h' | h'
      · simp at h'
      · rw [hwf.1]
        exact h'
    · intro ha
      exact (hiff₃ a).1 (hroots₃ a ha)
  · exact htopo₃

/-- Two adjacency tables with the same edge relation have the same walks. -/
theorem walkR_congr {adjA adjB : Adj}
    (h : ∀ u v, EdgeOf adjA u v ↔ EdgeOf adjB u v) {a b : String}
    (hw : WalkR adjA a b) : WalkR adjB a b := by
  induction hw with
  | refl => exact WalkR.refl _
  | head e _ ih => exact WalkR.head ((h _ _).1 e) ih

theorem hasCycle_congr {adjA adjB : Adj}
    (h : ∀ u v, EdgeOf adjA u v ↔ EdgeOf adjB u v) :
    HasCycle adjA ↔ HasCycle adjB := by
  constructor
  · rintro ⟨z, w, e, hw⟩
    exact ⟨z, w, (h _ _).1 e, walkR_congr h hw⟩
  · rintro ⟨z, w, e, hw⟩
    exact ⟨z, w, (h _ _).2 e, walkR_congr (fun u v => (h u v).symm) hw⟩

/-- Appending a fresh key with an empty successor list leaves the edge
relation unchanged. -/
theorem edgeOf_append_fresh {adj : Adj} {n : String} (hn : n ∉ keysOf adj) :
    ∀ u v, EdgeOf (adj ++ [(n, [])]) u v ↔ EdgeOf adj u v := by
  intro u v
  unfold EdgeOf succsOf
  by_cases hu : u = n
  · subst hu
    rw [alookup_append_right _ hn]
    rcases h : alookup adj u with _ | l
    · simp [alookup]
    · exact absurd ((alookup_isSome adj u).1 (by simp [h])) hn
  · rcases h : alookup adj u with _ | l
    · rw [alookup_append_right _ ((alookup_eq_none adj u).1 h)]
      simp [alookup, Ne.symm hu, h]
    · rw [alookup_append_left _ h]

/-- No walk can leave a node with an empty successor list. -/
theorem walkR_from_sink {adj : Adj} {t b : String} (ht : succsOf adj t = [])
    (hw : WalkR adj t b) : b = t := by
  cases hw with
  | refl => rfl
  | head e _ =>
    unfold EdgeOf at e
    rw [ht] at e
    simp at e

/-- Walks in an extension whose only new edges point into a sink `t`
either stay inside the old graph or end at `t`. -/
theorem walkR_sink_cases {adjA adjB : Adj} {t : String}
    (hedge : ∀ u v, EdgeOf adjB u v → EdgeOf adjA u v ∨ v = t)
    (ht : succsOf adjB t = []) {a b : String} (hw : WalkR adjB a b) :
    WalkR adjA a b ∨ b = t := by
  induction hw with
  | refl => exact Or.inl (WalkR.refl _)
  | head e hw' ih =>
    rcases hedge _ _ e with he | he
    · rcases ih with ih | ih
      · exact Or.inl (WalkR.head he ih)
      · exact Or.inr ih
    · subst he
      exact Or.inr (walkR_from_sink ht hw')

/-- Adding edges that all point into a sink cannot create a cycle. -/
theorem not_hasCycle_sink {adjA adjB : Adj} {t : String}
    (hedge : ∀ u v, EdgeOf adjB u v → EdgeOf adjA u v ∨ v = t)
    (ht : succsOf adjB t = []) (h : ¬ HasCycle adjA) : ¬ HasCycle adjB := by
  rintro ⟨z, w, e, hw⟩
  rcases hedge _ _ e with he | he
  · rcases walkR_sink_cases hedge ht hw with h' | h'
    · exact h ⟨z, w, he, h'⟩
    · subst h'
      unfold EdgeOf at e
      rw [ht] at e
      simp at e
  · subst he
    have hz := walkR_from_sink ht hw
    subst hz
    unfold EdgeOf at e
    rw [ht] at e
    simp at e

theorem mem_setA {α : Type _} : ∀ {l : List (String × α)} {k : String} {v : α} {p : String × α},
    p ∈ setA l k v → p = (k, v) ∨ p ∈ l := by
  intro l
  induction l with
  | nil =>
    intro k v p hp
    simp [setA] at hp
    exact Or.inl hp
  | cons q rest ih =>
    intro k v p hp
    obtain ⟨k', w⟩ := q
    by_cases hk : k' = k
    · subst hk
      simp [setA] at hp
      rcases hp with h | h
      · exact Or.inl h
      · exact Or.inr (List.mem_cons_of_mem _ h)
    · simp [setA, hk] at hp
      rcases hp with h | h
      · exact Or.inr (by rw [h]; exact List.mem_cons_self _ _)
      · rcases ih h with h' | h'
        · exact Or.inl h'
        · exact Or.inr (List.mem_cons_of_mem _ h')

theorem wf_empty {V : Type} : Wf (DAG.empty V) := by
  refine ⟨rfl, List.nodup_nil, ?_⟩
  intro p hp
  simp [DAG.empty] at hp

theorem hasCycle_empty {V : Type} : ¬ HasCycle (DAG.empty V).adjacency_table := by
  rintro ⟨z, w, e, _⟩
  unfold EdgeOf succsOf alookup DAG.empty at e
  simp at e

/-- Effect of the raw two-assignment insert on a well-formed graph with a
fresh name. -/
theorem rawAdd_spec {V : Type} {g : DAG V} (hwf : Wf g) {n : String} (obj : V)
    (hn : n ∉ keysOf g.values) :
    (rawAdd g n obj).values = g.values ++ [(n, obj)] ∧
    (rawAdd g n obj).adjacency_table = g.adjacency_table ++ [(n, [])] ∧
    Wf (rawAdd g n obj) ∧
    (¬ HasCycle g.adjacency_table → ¬ HasCycle (rawAdd g n obj).adjacency_table) := by
  have hn2 : n ∉ keysOf g.adjacency_table := by
    rw [← hwf.1]
    exact hn
  have hv : (rawAdd g n obj).values = g.values ++ [(n, obj)] := setA_of_not_mem obj hn
  have ha : (rawAdd g n obj).adjacency_table = g.adjacency_table ++ [(n, [])] :=
    setA_of_not_mem [] hn2
  refine ⟨hv, ha, ⟨?_, ?_, ?_⟩, ?_⟩
  · rw [hv, ha, keysOf_append, keysOf_append, hwf.1]
    rfl
  · rw [hv, keysOf_append]
    have : keysOf [(n, obj)] = [n] := rfl
    rw [this]
    simp [List.nodup_append]
    exact ⟨hwf.2.1, fun hh => hn hh⟩
  · intro p hp c hc
    rw [ha] at hp
    rw [ha, keysOf_append]
    rcases List.mem_append.1 hp with h | h
    · exact List.mem_append.2 (Or.inl (hwf.2.2 p h c hc))
    · simp at h
      rw [h] at hc
      simp at hc
  · intro hac
    rw [ha]
    intro hcy
    exact hac ((hasCycle_congr (edgeOf_append_fresh hn2)).1 hcy)

theorem add_node_inv {V : Type} {g : DAG V} (hwf : Wf g)
    (hac : ¬ HasCycle g.adjacency_table) (n : String) (p : V) :
    Wf (add_node g n p) ∧ ¬ HasCycle (add_node g n p).adjacency_table := by
  unfold add_node
  by_cases h : n ∈ keysOf g.values
  · rw [if_pos h]
    exact ⟨hwf, hac⟩
  · rw [if_neg h]
    obtain ⟨hv, ha, hwf', hac'⟩ := rawAdd_spec hwf p h
    exact ⟨hwf', hac' hac⟩

/-- Well-formedness and acyclicity survive a successful `add_edge`. -/
theorem add_edge_inv {V : Type} {g : DAG V} (hwf : Wf g)
    (hac : ¬ HasCycle g.adjacency_table) {s d : String}
    (hsucc : (add_edge g s d).1 = none) :
    Wf (add_edge g s d).2 ∧ ¬ HasCycle (add_edge g s d).2.adjacency_table := by
  unfold add_edge at hsucc ⊢
  by_cases h1 : s = d
  · simp only [if_pos h1]
    exact ⟨hwf, hac⟩
  · simp only [if_neg h1] at hsucc ⊢
    by_cases h2 : s ∉ keysOf g.adjacency_table
    · rw [if_pos h2] at hsucc
      simp at hsucc
    · rw [if_neg h2] at hsucc ⊢
      by_cases h3 : d ∉ keysOf g.adjacency_table
      · rw [if_pos h3]
        exact ⟨hwf, hac⟩
      · rw [if_neg h3] at hsucc ⊢
        by_cases h4 : d ∈ succsOf g.adjacency_table s
        · rw [if_pos h4]
          exact ⟨hwf, hac⟩
        · rw [if_neg h4] at hsucc ⊢
          have hs : s ∈ keysOf g.adjacency_table := not_not.1 h2
          have hd : d ∈ keysOf g.adjacency_table := not_not.1 h3
          set g2 : DAG V :=
            { g with adjacency_table := (setA g.adjacency_table s
                (succsOf g.adjacency_table s ++ [d])) } with hg2
          have hwf2 : Wf g2 := by
            refine ⟨?_, ?_, ?_⟩
            · show keysOf g.values = keysOf (setA g.adjacency_table s _)
              rw [keysOf_setA_of_mem _ hs]
              exact hwf.1
            · exact hwf.2.1
            · intro q hq c hc
              show c ∈ keysOf (setA g.adjacency_table s _)
              rw [keysOf_setA_of_mem _ hs]
              rcases mem_setA hq with h' | h'
              · rw [h'] at hc
                simp at hc
                rcases hc with h'' | h''
                · exact (closedAdj_of_wf hwf s c h'').2
                · rw [h'']
                  exact hd
              · exact hwf.2.2 q h' c hc
          by_cases h5 : detect_cycle g2
          · rw [if_pos h5] at hsucc
            simp at hsucc
          · rw [if_neg h5] at hsucc ⊢
            refine ⟨hwf2, ?_⟩
            exact not_hasCycle_of_detect_false hwf2 (by simpa using h5)

/-- Every reachable graph state is well-formed and acyclic. -/
theorem reachDAG_inv {V : Type} {g : DAG V} (h : ReachDAG g) :
    Wf g ∧ ¬ HasCycle g.adjacency_table := by
  induction h with
  | empty => exact ⟨wf_empty, hasCycle_empty⟩
  | node n p _ ih => exact add_node_inv ih.1 ih.2 n p
  | edge s d _ hs ih => exact add_edge_inv ih.1 ih.2 hs

theorem chainTable_keys : ∀ ks : List String, keysOf (chainTable ks) = ks := by
  intro ks
  induction ks with
  | nil => rfl
  | cons k rest ih =>
    cases rest with
    | nil => rfl
    | cons k' rest' =>
      show keysOf ((k, [k']) :: chainTable (k' :: rest')) = k :: k' :: rest'
      rw [keysOf_cons, ih]

theorem succs_chainTable_cons2 (k k' : String) (rest : List String) :
    succsOf (chainTable (k :: k' :: rest)) k = [k'] := by
  simp [chainTable, succsOf, alookup]

theorem succs_chainTable_ne {x k : String} (h : x ≠ k) (tail : List String) :
    succsOf (chainTable (k :: tail)) x = succsOf (chainTable tail) x := by
  cases tail with
  | nil => simp [chainTable, succsOf, alookup, Ne.symm h]
  | cons k' rest => simp [chainTable, succsOf, alookup, Ne.symm h]

theorem getLastD_irrel : ∀ (l : List String), l ≠ [] → ∀ d1 d2, l.getLastD d1 = l.getLastD d2 := by
  intro l
  induction l with
  | nil => intro h; exact absurd rfl h
  | cons a rest ih =>
    intro _ d1 d2
    cases rest with
    | nil => rfl
    | cons b r =>
      show (b :: r).getLastD a = (b :: r).getLastD a
      rfl

theorem getLastD_mem : ∀ (l : List String), l ≠ [] → ∀ d, l.getLastD d ∈ l := by
  intro l
  induction l with
  | nil => intro h; exact absurd rfl h
  | cons a rest ih =>
    intro _ d
    cases rest with
    | nil => exact List.mem_cons_self _ _
    | cons b r =>
      show (b :: r).getLastD a ∈ a :: b :: r
      exact List.mem_cons_of_mem _ (ih (by simp) a)

theorem getLastD_cons_ne_nil {a : String} {tail : List String} (h : tail ≠ []) (d : String) :
    (a :: tail).getLastD d = tail.getLastD d := by
  cases tail with
  | nil => exact absurd rfl h
  | cons b r =>
    show (b :: r).getLastD a = (b :: r).getLastD d
    exact getLastD_irrel _ (by simp) a d

theorem succs_chainTable_last : ∀ ks : List String, ks.Nodup → ks ≠ [] →
    succsOf (chainTable ks) (ks.getLastD "") = [] := by
  intro ks
  induction ks with
  | nil => intro _ h; exact absurd rfl h
  | cons k rest ih =>
    intro hnd _
    cases rest with
    | nil => simp [chainTable, succsOf, alookup]
    | cons k' rest' =>
      have htne : (k' :: rest') ≠ ([] : List String) := by simp
      rw [getLastD_cons_ne_nil htne]
      have hlmem : (k' :: rest').getLastD "" ∈ k' :: rest' := getLastD_mem _ htne ""
      have hkne : (k' :: rest').getLastD "" ≠ k := by
        intro hh
        have := List.nodup_cons.1 hnd
        exact this.1 (hh ▸ hlmem)
      rw [succs_chainTable_ne hkne]
      exact ih (List.nodup_cons.1 hnd).2 (by simp)

theorem chain_extend : ∀ (ks : List String) (n : String), ks ≠ [] → ks.Nodup →
    setA (chainTable ks ++ [(n, [])]) (ks.getLastD "") [n] = chainTable (ks ++ [n]) := by
  intro ks
  induction ks with
  | nil => intro n h; exact absurd rfl h
  | cons k rest ih =>
    intro n _ hnd
    cases rest with
    | nil => simp [chainTable, setA]
    | cons k' rest' =>
      have htne : (k' :: rest') ≠ ([] : List String) := by simp
      rw [getLastD_cons_ne_nil htne]
      have hlmem : (k' :: rest').getLastD "" ∈ k' :: rest' := getLastD_mem _ htne ""
      have hkne : k ≠ (k' :: rest').getLastD "" := by
        intro hh
        exact (List.nodup_cons.1 hnd).1 (hh ▸ hlmem)
      show setA ((k, [k']) :: (chainTable (k' :: rest') ++ [(n, [])])) _ [n] = _
      rw [show ∀ z, setA ((k, [k']) :: z) ((k' :: rest').getLastD "") [n]
          = (k, [k']) :: setA z ((k' :: rest').getLastD "") [n] by
        intro z
        simp only [setA]
        rw [if_neg hkne]]
      rw [ih n htne (List.nodup_cons.1 hnd).2]
      rfl

theorem succs_setA_self (adj : Adj) (s : String) (L : List String) :
    succsOf (setA adj s L) s = L := by
  simp [succsOf, alookup_setA_self]

theorem succs_setA_ne (adj : Adj) {u s : String} (L : List String) (h : u ≠ s) :
    succsOf (setA adj s L) u = succsOf adj u := by
  simp [succsOf, alookup_setA_ne adj L h]

/-- Appending `d` to `s`'s successor list adds exactly the edge `(s, d)`. -/
theorem edgeOf_set_edge (adj : Adj) (s d : String) :
    ∀ u v, EdgeOf (setA adj s (succsOf adj s ++ [d])) u v ↔
      (EdgeOf adj u v ∨ (u = s ∧ v = d)) := by
  intro u v
  by_cases hu : u = s
  · subst hu
    unfold EdgeOf
    rw [succs_setA_self]
    simp
  · unfold EdgeOf
    rw [succs_setA_ne _ _ hu]
    simp [hu]

theorem wf_set_edge {V : Type} {g : DAG V} (hwf : Wf g) {s d : String}
    (hs : s ∈ keysOf g.adjacency_table) (hd : d ∈ keysOf g.adjacency_table) :
    Wf { g with adjacency_table :=
        (setA g.adjacency_table s (succsOf g.adjacency_table s ++ [d])) } := by
  refine ⟨?_, hwf.2.1, ?_⟩
  · show keysOf g.values = keysOf (setA _ s _)
    rw [keysOf_setA_of_mem _ hs]
    exact hwf.1
  · intro q hq c hc
    show c ∈ keysOf (setA _ s _)
    rw [keysOf_setA_of_mem _ hs]
    rcases mem_setA hq with h' | h'
    · rw [h'] at hc
      simp at hc
      rcases hc with h'' | h''
      · exact (closedAdj_of_wf hwf s c h'').2
      · rw [h'']
        exact hd
    · exact hwf.2.2 q h' c hc

theorem add_sub_edge_inv {V : Type} {c : CN V} (hinv : CNInv c) {s d : String}
    (hnp : c.type ≠ PIPE) (hsucc : (add_sub_edge c s d).1 = none) :
    CNInv (add_sub_edge c s d).2 ∧ (add_sub_edge c s d).2.type = c.type ∧
      (add_sub_edge c s d).2.used_group_ids = c.used_group_ids := by
  unfold add_sub_edge at hsucc ⊢
  by_cases h1 : s = d
  · rw [if_pos h1] at hsucc
    simp at hsucc
  · rw [if_neg h1] at hsucc ⊢
    by_cases h2 : s ∉ keysOf c.graph.adjacency_table
    · rw [if_pos h2] at hsucc
      simp at hsucc
    · rw [if_neg h2] at hsucc ⊢
      by_cases h3 : d ∉ keysOf c.graph.adjacency_table
      · rw [if_pos h3] at hsucc
        simp at hsucc
      · rw [if_neg h3] at hsucc ⊢
        by_cases h4 : d ∈ succsOf c.graph.adjacency_table s
        · rw [if_pos h4]
          exact ⟨hinv, rfl, rfl⟩
        · rw [if_neg h4] at hsucc ⊢
          set g2 : DAG (CVal V) :=
            { c.graph with adjacency_table := (setA c.graph.adjacency_table s
                (succsOf c.graph.adjacency_table s ++ [d])) } with hg2
          have hwf2 : Wf g2 := wf_set_edge hinv.1 (not_not.1 h2) (not_not.1 h3)
          by_cases h5 : (c.type ≠ PIPE ∧ detect_cycle g2)
          · rw [if_pos h5] at hsucc
            simp at hsucc
          · rw [if_neg h5] at hsucc ⊢
            have hdet : detect_cycle g2 = false := by
              cases hdc : detect_cycle g2 with
              | false => rfl
              | true => exact absurd ⟨hnp, hdc⟩ h5
            refine ⟨⟨hwf2, not_hasCycle_of_detect_false hwf2 hdet, ?_⟩, rfl, rfl⟩
            intro hp
            exact absurd hp hnp

theorem add_sub_node_inv {V : Type} {c : CN V} (hinv : CNInv c)
    (n : String) (obj : CVal V) :
    (add_sub_node c n obj).1 = none ∧ CNInv (add_sub_node c n obj).2 ∧
      (add_sub_node c n obj).2.type = c.type ∧
      (add_sub_node c n obj).2.used_group_ids = c.used_group_ids := by
  unfold add_sub_node
  by_cases h0 : n ∈ keysOf c.graph.values
  · rw [if_pos h0]
    exact ⟨rfl, hinv, rfl, rfl⟩
  · rw [if_neg h0]
    by_cases hgs : c.type = GROUP ∨ c.type = SUBDAG
    · rw [if_pos hgs]
      obtain ⟨hv, ha, hwf', hac'⟩ := rawAdd_spec hinv.1 obj h0
      refine ⟨rfl, ⟨hwf', hac' hinv.2.1, ?_⟩, rfl, rfl⟩
      intro hp
      rcases hgs with hg | hg
      · rw [hp] at hg
        exact absurd hg (by decide)
      · rw [hp] at hg
        exact absurd hg (by decide)
    · rw [if_neg hgs]
      by_cases hpe : c.type = PIPE ∧ c.graph.values.isEmpty = false
      · rw [if_pos hpe]
        obtain ⟨hp, hne⟩ := hpe
        have hne' : c.graph.values ≠ [] := by
          intro hh
          rw [hh] at hne
          simp at hne
        have hksne : keysOf c.graph.values ≠ [] := by
          intro hh
          apply hne'
          cases hv : c.graph.values with
          | nil => rfl
          | cons p r =>
            rw [hv] at hh
            obtain ⟨k, w⟩ := p
            rw [keysOf_cons] at hh
            simp at hh
        have hchain := hinv.2.2 hp
        have hnd : (keysOf c.graph.values).Nodup := hinv.1.2.1
        set ks := keysOf c.graph.values with hks
        set last := lastKey c.graph.values with hlast
        have hlastD : last = ks.getLastD "" := rfl
        have hlmem : last ∈ ks := getLastD_mem _ hksne ""
        have hlneq : ¬ (last = n) := fun hh => h0 (hh ▸ hlmem)
        obtain ⟨hv1, ha1, hwf1, hac1⟩ := rawAdd_spec hinv.1 obj h0
        have hn_adj : n ∉ keysOf c.graph.adjacency_table := by
          rw [← hinv.1.1]
          exact h0
        have hkeys1 : keysOf (rawAdd c.graph n obj).adjacency_table
            = keysOf c.graph.adjacency_table ++ [n] := by
          rw [ha1, keysOf_append]
          rfl
        have hlmem1 : last ∈ keysOf (rawAdd c.graph n obj).adjacency_table := by
          rw [hkeys1]
          exact List.mem_append.2 (Or.inl (by rw [← hinv.1.1]; exact hlmem))
        have hnmem1 : n ∈ keysOf (rawAdd c.graph n obj).adjacency_table := by
          rw [hkeys1]
          simp
        have hsuccs1 : succsOf (rawAdd c.graph n obj).adjacency_table last
            = succsOf c.graph.adjacency_table last := by
          rw [ha1]
          unfold succsOf
          rcases hl : alookup c.graph.adjacency_table last with _ | L
          · rw [alookup_append_right _ ((alookup_eq_none _ _).1 hl)]
            simp [alookup, Ne.symm hlneq]
          · rw [alookup_append_left _ hl]
        have hnsucc : n ∉ succsOf (rawAdd c.graph n obj).adjacency_table last := by
          rw [hsuccs1]
          intro hh
          exact hn_adj (closedAdj_of_wf hinv.1 last n hh).2
        show (add_sub_edge { c with graph := rawAdd c.graph n obj } last n).1 = none ∧ _
        unfold add_sub_edge
        have hcond : ∀ P : Prop,
            ¬ (({ c with graph := rawAdd c.graph n obj } : CN V).type ≠ PIPE ∧ P) := by
          intro P hh
          exact hh.1 hp
        rw [if_neg hlneq, if_neg (not_not.2 hlmem1), if_neg (not_not.2 hnmem1),
          if_neg hnsucc, if_neg (hcond _)]
        have hwf2 : Wf { rawAdd c.graph n obj with adjacency_table :=
            (setA (rawAdd c.graph n obj).adjacency_table last
              (succsOf (rawAdd c.graph n obj).adjacency_table last ++ [n])) } :=
          wf_set_edge hwf1 hlmem1 hnmem1
        have hedge2 : ∀ u v, EdgeOf (setA (rawAdd c.graph n obj).adjacency_table last
            (succsOf (rawAdd c.graph n obj).adjacency_table last ++ [n])) u v →
            EdgeOf c.graph.adjacency_table u v ∨ v = n := by
          intro u v he
          rcases (edgeOf_set_edge _ last n u v).1 he with h' | h'
          · rw [ha1] at h'
            exact Or.inl ((edgeOf_append_fresh hn_adj u v).1 h')
          · exact Or.inr h'.2
        have hsink2 : succsOf (setA (rawAdd c.graph n obj).adjacency_table last
            (succsOf (rawAdd c.graph n obj).adjacency_table last ++ [n])) n = [] := by
          rw [succs_setA_ne _ _ (Ne.symm hlneq |> fun hh => hh), ha1]
          unfold succsOf
          rw [alookup_append_right _ hn_adj]
          simp [alookup]
        have hac2 : ¬ HasCycle (setA (rawAdd c.graph n obj).adjacency_table last
            (succsOf (rawAdd c.graph n obj).adjacency_table last ++ [n])) :=
          not_hasCycle_sink hedge2 hsink2 hinv.2.1
        refine ⟨rfl, ⟨hwf2, hac2, ?_⟩, rfl, rfl⟩
        intro _
        show setA (rawAdd c.graph n obj).adjacency_table last
            (succsOf (rawAdd c.graph n obj).adjacency_table last ++ [n])
          = chainTable (keysOf (rawAdd c.graph n obj).values)
        rw [hv1, keysOf_append, hsuccs1, hchain]
        rw [show keysOf [(n, obj)] = [n] from rfl]
        rw [show succsOf (chainTable ks) last = [] from by
          rw [hlastD]
          exact succs_chainTable_last ks hnd hksne]
        rw [ha1, hchain]
        simp only [List.nil_append]
        rw [hlastD]
        exact chain_extend ks n hksne hnd
      · rw [if_neg hpe]
        by_cases hp2 : c.type = PIPE
        · rw [if_pos hp2]
          have hemp : c.graph.values = [] := by
            by_cases he : c.graph.values.isEmpty = false
            · exact absurd ⟨hp2, he⟩ hpe
            · cases hv : c.graph.values with
              | nil => rfl
              | cons p r =>
                rw [hv] at he
                simp at he
          obtain ⟨hv, ha, hwf', hac'⟩ := rawAdd_spec hinv.1 obj h0
          refine ⟨rfl, ⟨hwf', hac' hinv.2.1, ?_⟩, rfl, rfl⟩
          intro _
          show (rawAdd c.graph n obj).adjacency_table
            = chainTable (keysOf (rawAdd c.graph n obj).values)
          rw [hv, ha, hemp]
          have hadj : c.graph.adjacency_table = [] := by
            have := hinv.1.1
            rw [hemp] at this
            cases hA : c.graph.adjacency_table with
            | nil => rfl
            | cons q r =>
              rw [hA] at this
              obtain ⟨k, w⟩ := q
              rw [keysOf_cons] at this
              simp [keysOf] at this
          rw [hadj]
          rfl
        · rw [if_neg hp2]
          exact ⟨rfl, hinv, rfl, rfl⟩

theorem CNInv_finishGid {V : Type} {c : CN V} (hinv : CNInv c) (gid : String) :
    CNInv (finishGid c gid) ∧ (finishGid c gid).type = c.type := by
  unfold finishGid
  by_cases h : gid ∈ c.used_group_ids
  · rw [if_pos h]
    exact ⟨hinv, rfl⟩
  · rw [if_neg h]
    exact ⟨hinv, rfl⟩

theorem detect_false_of_not_hasCycle {V : Type} {g : DAG V} (hwf : Wf g)
    (hac : ¬ HasCycle g.adjacency_table) : detect_cycle g = false := by
  cases h : detect_cycle g with
  | false => rfl
  | true => exact absurd ((detect_cycle_iff hwf).1 h) hac

theorem add_group_inv {V : Type} {c : CN V} (hinv : CNInv c) {gid : String}
    {dep : Option String} {names : List String} {grp : List V}
    (hsucc : (add_group c gid dep names grp).1 = none) :
    CNInv (add_group c gid dep names grp).2 ∧
      (add_group c gid dep names grp).2.type = c.type := by
  unfold add_group at hsucc ⊢
  by_cases h1 : c.type ≠ GROUP
  · rw [if_pos h1] at hsucc
    simp at hsucc
  · rw [if_neg h1] at hsucc ⊢
    by_cases h2 : names.isEmpty = false ∧ grp.length = 1
    · rw [if_pos h2] at hsucc
      simp at hsucc
    · rw [if_neg h2] at hsucc ⊢
      by_cases h3 : grp.isEmpty
      · rw [if_pos h3] at hsucc
        simp at hsucc
      · rw [if_neg h3] at hsucc ⊢
        by_cases h4 : gid = ""
        · rw [if_pos h4] at hsucc
          simp at hsucc
        · rw [if_neg h4] at hsucc ⊢
          by_cases h5 : gid ∈ c.used_group_ids
          · rw [if_pos h5] at hsucc
            simp at hsucc
          · rw [if_neg h5] at hsucc ⊢
            by_cases h6 : names.length = grp.length
            · rw [if_pos h6] at hsucc ⊢
              rcases hbi : buildInternal [] (names.zip grp) with _ | internal
              · exact ⟨hinv, rfl⟩
              · dsimp only
                rcases hsn : add_sub_node c gid (CVal.dict internal) with ⟨e1, c1⟩
                obtain ⟨he1, hinv1, hty1, _⟩ := add_sub_node_inv hinv gid (CVal.dict internal)
                rw [hsn] at he1 hinv1 hty1
                simp only at he1
                subst he1
                rw [hbi] at hsucc
                dsimp only at hsucc
                rw [hsn] at hsucc
                dsimp only at hsucc ⊢
                cases dep with
                | none =>
                  dsimp only at hsucc ⊢
                  refine ⟨(CNInv_finishGid hinv1 gid).1, ?_⟩
                  rw [(CNInv_finishGid hinv1 gid).2]
                  exact hty1
                | some d =>
                  dsimp only at hsucc ⊢
                  by_cases hd : d ≠ ""
                  · rw [if_pos hd] at hsucc ⊢
                    rcases hse : add_sub_edge c1 d gid with ⟨e2, c2⟩
                    rw [hse] at hsucc
                    cases e2 with
                    | some e => simp at hsucc
                    | none =>
                      have hnp1 : c1.type ≠ PIPE := by
                        rw [hty1]
                        rw [not_not.1 h1]
                        decide
                      obtain ⟨hinv2, hty2, _⟩ := add_sub_edge_inv hinv1 hnp1
                        (by rw [hse])
                      rw [hse] at hinv2 hty2
                      dsimp only at hsucc ⊢
                      refine ⟨(CNInv_finishGid hinv2 gid).1, ?_⟩
                      rw [(CNInv_finishGid hinv2 gid).2, hty2]
                      exact hty1
                  · rw [if_neg hd] at hsucc ⊢
                    dsimp only at hsucc ⊢
                    refine ⟨(CNInv_finishGid hinv1 gid).1, ?_⟩
                    rw [(CNInv_finishGid hinv1 gid).2]
                    exact hty1
            · rw [if_neg h6] at hsucc ⊢
              obtain ⟨hf, hft⟩ := CNInv_finishGid hinv gid
              exact ⟨hf, hft⟩

theorem subNodeFold_inv {V : Type} :
    ∀ (ps : List (String × CVal V)) {c : CN V}, CNInv c →
      (subNodeFold c ps).1 = none ∧ CNInv (subNodeFold c ps).2 ∧
        (subNodeFold c ps).2.type = c.type := by
  intro ps
  induction ps with
  | nil =>
    intro c hinv
    exact ⟨rfl, hinv, rfl⟩
  | cons q rest ih =>
    intro c hinv
    obtain ⟨n, p⟩ := q
    rcases hsn : add_sub_node c n p with ⟨e1, c1⟩
    obtain ⟨he1, hinv1, hty1, _⟩ := add_sub_node_inv hinv n p
    rw [hsn] at he1 hinv1 hty1
    simp only at he1
    subst he1
    have heq : subNodeFold c ((n, p) :: rest) = subNodeFold c1 rest := by
      show (match add_sub_node c n p with
        | (some e, c1) => (some e, c1)
        | (none, c1) => subNodeFold c1 rest) = subNodeFold c1 rest
      rw [hsn]
    rw [heq]
    obtain ⟨hf1, hf2, hf3⟩ := ih hinv1
    exact ⟨hf1, hf2, by rw [hf3]; exact hty1⟩

theorem chainLoopPairs_noop {V : Type} (c : CN V) : ∀ ks : List String,
    List.Chain' (fun a b => a ≠ b ∧ a ∈ keysOf c.graph.adjacency_table ∧
      b ∈ keysOf c.graph.adjacency_table ∧ b ∈ succsOf c.graph.adjacency_table a) ks →
    chainLoopPairs c ks = (none, c) := by
  intro ks
  induction ks with
  | nil => intro _; rfl
  | cons a rest ih =>
    cases rest with
    | nil => intro _; rfl
    | cons b rest' =>
      intro hch
      obtain ⟨⟨hab, hak, hbk, hbs⟩, hch'⟩ := List.chain'_cons.1 hch
      show (match add_sub_edge c a b with
        | (some e, c1) => (some e, c1)
        | (none, c1) => chainLoopPairs c1 (b :: rest')) = (none, c)
      have hse : add_sub_edge c a b = (none, c) := by
        unfold add_sub_edge
        rw [if_neg hab, if_neg (not_not.2 hak), if_neg (not_not.2 hbk), if_pos hbs]
      rw [hse]
      exact ih hch'

theorem chain_of_chainTable (adj2 : Adj) : ∀ ks : List String, ks.Nodup →
    (∀ x ∈ ks, succsOf adj2 x = succsOf (chainTable ks) x) →
    (∀ x ∈ ks, x ∈ keysOf adj2) →
    List.Chain' (fun a b => a ≠ b ∧ a ∈ keysOf adj2 ∧
      b ∈ keysOf adj2 ∧ b ∈ succsOf adj2 a) ks := by
  intro ks
  induction ks with
  | nil => intro _ _ _; exact List.chain'_nil
  | cons a rest ih =>
    cases rest with
    | nil => intro _ _ _; simp
    | cons b rest' =>
      intro hnd hsuc hkey
      refine List.chain'_cons.2 ⟨⟨?_, ?_, ?_, ?_⟩, ?_⟩
      · intro hh
        exact (List.nodup_cons.1 hnd).1 (hh ▸ List.mem_cons_self _ _)
      · exact hkey a (List.mem_cons_self _ _)
      · exact hkey b (List.mem_cons_of_mem _ (List.mem_cons_self _ _))
      · rw [hsuc a (List.mem_cons_self _ _), succs_chainTable_cons2]
        simp
      · apply ih (List.nodup_cons.1 hnd).2
        · intro x hx
          have hxa : x ≠ a := by
            intro hh
            exact (List.nodup_cons.1 hnd).1 (hh ▸ hx)
          rw [hsuc x (List.mem_cons_of_mem _ hx), succs_chainTable_ne hxa]
        · intro x hx
          exact hkey x (List.mem_cons_of_mem _ hx)

theorem add_pipeline_inv {V : Type} {c : CN V} (hinv : CNInv c)
    {names : List String} {ps : List (CVal V)}
    (hsucc : (add_pipeline c names ps).1 = none) :
    CNInv (add_pipeline c names ps).2 ∧ (add_pipeline c names ps).2.type = c.type := by
  unfold add_pipeline at hsucc ⊢
  by_cases h1 : c.type ≠ PIPE
  · rw [if_pos h1] at hsucc
    simp at hsucc
  · rw [if_neg h1] at hsucc ⊢
    by_cases h2 : names.isEmpty = false ∧ ps.length = 1
    · rw [if_pos h2] at hsucc
      simp at hsucc
    · rw [if_neg h2] at hsucc ⊢
      by_cases h3 : ps.isEmpty
      · rw [if_pos h3] at hsucc
        simp at hsucc
      · rw [if_neg h3] at hsucc ⊢
        by_cases h4 : names.length = ps.length
        · rw [if_pos h4] at hsucc ⊢
          rcases hsf : subNodeFold c (names.zip ps) with ⟨e1, c1⟩
          obtain ⟨he1, hinv1, hty1⟩ := subNodeFold_inv (names.zip ps) hinv
          rw [hsf] at he1 hinv1 hty1
          simp only at he1
          subst he1
          rw [hsf] at hsucc
          dsimp only at hsucc ⊢
          have hp1 : c1.type = PIPE := by
            rw [hty1]
            exact not_not.1 h1
          have hchain1 : c1.graph.adjacency_table
              = chainTable (keysOf c1.graph.values) := hinv1.2.2 hp1
          have hloop := chainLoopPairs_noop c1 (keysOf c1.graph.values)
            (by
              apply chain_of_chainTable
              · exact hinv1.1.2.1
              · intro x _
                rw [hchain1]
              · intro x hx
                rw [← hinv1.1.1]
                exact hx)
          rw [hloop]
          exact ⟨hinv1, hty1⟩
        · rw [if_neg h4] at hsucc
          simp at hsucc

theorem reachCN_inv {V : Type} {c : CN V} (h : ReachCN c) : CNInv c := by
  induction h with
  | make name ntype c hmk =>
    unfold CN.make at hmk
    by_cases hcond : ntype = PIPE ∨ ntype = GROUP ∨ ntype = SUBDAG
    · rw [if_pos hcond] at hmk
      simp at hmk
      refine ⟨?_, ?_, ?_⟩
      · rw [← hmk]
        exact wf_empty
      · rw [← hmk]
        exact hasCycle_empty
      · rw [← hmk]
        intro _
        rfl
    · rw [if_neg hcond] at hmk
      simp at hmk
  | subnode n obj _ _ ih => exact (add_sub_node_inv ih n obj).2.1
  | subedge s d _ hnp hs ih => exact (add_sub_edge_inv ih hnp hs).1
  | group gid dep names grp _ hs ih => exact (add_group_inv ih hs).1
  | pipeline names ps _ hs ih => exact (add_pipeline_inv ih hs).1

theorem mem_keysOf_setA_self {α : Type _} : ∀ (l : List (String × α)) (k : String) (v : α),
    k ∈ keysOf (setA l k v) := by
  intro l k v
  induction l with
  | nil => simp [setA, keysOf]
  | cons q rest ih =>
    obtain ⟨k', w⟩ := q
    by_cases hk : k' = k
    · simp [setA, hk, keysOf_cons]
    · rw [show setA ((k', w) :: rest) k v = (k', w) :: setA rest k v by simp [setA, hk]]
      rw [keysOf_cons]
      exact List.mem_cons_of_mem _ ih

theorem mem_keysOf_setA_of_mem {α : Type _} {l : List (String × α)} {x k : String} (v : α)
    (h : x ∈ keysOf l) : x ∈ keysOf (setA l k v) := by
  induction l with
  | nil => simp [keysOf_nil] at h
  | cons q rest ih =>
    obtain ⟨k', w⟩ := q
    by_cases hk : k' = k
    · subst hk
      rw [show setA ((k', w) :: rest) k' v = (k', v) :: rest by simp [setA]]
      rw [keysOf_cons] at h ⊢
      exact h
    · rw [show setA ((k', w) :: rest) k v = (k', w) :: setA rest k v by simp [setA, hk]]
      rw [keysOf_cons] at h ⊢
      rcases List.mem_cons.1 h with h' | h'
      · exact h' ▸ List.mem_cons_self _ _
      · exact List.mem_cons_of_mem _ (ih h')

/-- A second identical `add_edge` call leaves the state exactly where the
first call left it, whatever the first call's outcome was. -/
theorem add_edge_snd_idem {V : Type} (g : DAG V) (s d : String) :
    (add_edge (add_edge g s d).2 s d).2 = (add_edge g s d).2 := by
  by_cases h1 : s = d
  · have e1 : add_edge g s d = (none, g) := by
      unfold add_edge
      rw [if_pos h1]
    rw [e1]
    show (add_edge g s d).2 = g
    rw [e1]
  · by_cases h2 : s ∉ keysOf g.adjacency_table
    · have e1 : add_edge g s d = (some .srcMissing, g) := by
        unfold add_edge
        rw [if_neg h1, if_pos h2]
      rw [e1]
      show (add_edge g s d).2 = g
      rw [e1]
    · by_cases h3 : d ∉ keysOf g.adjacency_table
      · have e1 : add_edge g s d = (none, g) := by
          unfold add_edge
          rw [if_neg h1, if_neg h2, if_pos h3]
        rw [e1]
        show (add_edge g s d).2 = g
        rw [e1]
      · by_cases h4 : d ∈ succsOf g.adjacency_table s
        · have e1 : add_edge g s d = (none, g) := by
            unfold add_edge
            rw [if_neg h1, if_neg h2, if_neg h3, if_pos h4]
          rw [e1]
          show (add_edge g s d).2 = g
          rw [e1]
        · have e2 : (add_edge g s d).2 = { g with adjacency_table :=
              (setA g.adjacency_table s (succsOf g.adjacency_table s ++ [d])) } := by
            unfold add_edge
            rw [if_neg h1, if_neg h2, if_neg h3, if_neg h4]
            by_cases h5 : detect_cycle { g with adjacency_table :=
                (setA g.adjacency_table s (succsOf g.adjacency_table s ++ [d])) }
            · rw [if_pos h5]
            · rw [if_neg h5]
          rw [e2]
          have hs2 : s ∈ keysOf (setA g.adjacency_table s
              (succsOf g.adjacency_table s ++ [d])) := mem_keysOf_setA_self _ _ _
          have hd2 : d ∈ keysOf (setA g.adjacency_table s
              (succsOf g.adjacency_table s ++ [d])) :=
            mem_keysOf_setA_of_mem _ (not_not.1 h3)
          have hds : d ∈ succsOf (setA g.adjacency_table s
              (succsOf g.adjacency_table s ++ [d])) s := by
            rw [succs_setA_self]
            simp
          have e3 : add_edge { g with adjacency_table :=
              (setA g.adjacency_table s (succsOf g.adjacency_table s ++ [d])) } s d
              = (none, { g with adjacency_table :=
                (setA g.adjacency_table s (succsOf g.adjacency_table s ++ [d])) }) := by
            unfold add_edge
            rw [if_neg h1, if_neg (not_not.2 hs2), if_neg (not_not.2 hd2), if_pos hds]
          rw [e3]

theorem buildInternal_ok {V : Type} : ∀ (l acc : List (String × V)),
    (keysOf acc ++ keysOf l).Nodup → buildInternal acc l = some (acc ++ l) := by
  intro l
  induction l with
  | nil =>
    intro acc _
    simp [buildInternal]
  | cons q rest ih =>
    intro acc hnd
    obtain ⟨n, p⟩ := q
    rw [keysOf_cons] at hnd
    have hdisj := (List.nodup_append.1 hnd).2.2
    have hn : n ∉ keysOf acc := fun hh => hdisj hh (List.mem_cons_self _ _)
    show (if n ∈ keysOf acc then none else buildInternal (acc ++ [(n, p)]) rest)
      = some (acc ++ (n, p) :: rest)
    rw [if_neg hn]
    have hnd' : (keysOf (acc ++ [(n, p)]) ++ keysOf rest).Nodup := by
      rw [keysOf_append]
      rw [show keysOf [(n, p)] = [n] from rfl]
      rw [List.append_assoc]
      rw [show [n] ++ keysOf rest = n :: keysOf rest from rfl]
      exact hnd
    rw [ih (acc ++ [(n, p)]) hnd']
    rw [List.append_assoc]
    rfl

theorem alookup_append_left_of_mem {α : Type _} {l₁ : List (String × α)}
    (l₂ : List (String × α)) {k : String} (h : k ∈ keysOf l₁) :
    alookup (l₁ ++ l₂) k = alookup l₁ k := by
  rcases hl : alookup l₁ k with _ | v
  · exact absurd ((alookup_eq_none _ _).1 hl) (not_not.2 h)
  · exact alookup_append_left _ hl

theorem succs_append_of_mem {adj : Adj} (l₂ : Adj) {k : String}
    (h : k ∈ keysOf adj) : succsOf (adj ++ l₂) k = succsOf adj k := by
  unfold succsOf
  rw [alookup_append_left_of_mem _ h]

/-- Exact result of a clean, successful `add_group`: the aggregate becomes
the single new sub-node, the optional dependency edge is the only edge
added, and the group id is recorded. -/
theorem add_group_spec {V : Type} {c : CN V} {gid : String} {dep : Option String}
    {names : List String} {ps : List V}
    (h1 : c.type = GROUP) (h2 : names.Nodup) (h3 : names.length = ps.length)
    (h4 : 2 ≤ ps.length) (h5 : gid ≠ "") (h6 : gid ∉ c.used_group_ids)
    (h7 : gid ∉ keysOf c.graph.values) (h8 : Wf c.graph)
    (h9 : detect_cycle c.graph = false)
    (h10 : ∀ x, dep = some x → x ≠ "" ∧ x ∈ keysOf c.graph.values) :
    add_group c gid dep names ps = (none,
      { c with
        graph := ({ values := c.graph.values ++ [(gid, CVal.dict (names.zip ps))],
                    adjacency_table := groupAdjAfter c.graph.adjacency_table gid dep } :
          DAG (CVal V)),
        used_group_ids := c.used_group_ids ++ [gid] }) := by
  have hn_adj : gid ∉ keysOf c.graph.adjacency_table := by
    rw [← h8.1]
    exact h7
  have hzipkeys : keysOf (names.zip ps) = names :=
    List.map_fst_zip names ps (le_of_eq h3)
  have hbi : buildInternal [] (names.zip ps) = some (names.zip ps) := by
    have := @buildInternal_ok V (names.zip ps) []
      (by rw [show keysOf ([] : List (String × V)) = [] from rfl, List.nil_append,
        hzipkeys]; exact h2)
    simpa using this
  have hsn : add_sub_node c gid (CVal.dict (names.zip ps))
      = (none, { c with graph := rawAdd c.graph gid (CVal.dict (names.zip ps)) }) := by
    unfold add_sub_node
    rw [if_neg h7, if_pos (Or.inl h1)]
  have hraw_v : (rawAdd c.graph gid (CVal.dict (names.zip ps))).values
      = c.graph.values ++ [(gid, CVal.dict (names.zip ps))] :=
    setA_of_not_mem _ h7
  have hraw_a : (rawAdd c.graph gid (CVal.dict (names.zip ps))).adjacency_table
      = c.graph.adjacency_table ++ [(gid, [])] :=
    setA_of_not_mem _ hn_adj
  have hraw_eq : rawAdd c.graph gid (CVal.dict (names.zip ps))
      = ({ values := c.graph.values ++ [(gid, CVal.dict (names.zip ps))],
           adjacency_table := c.graph.adjacency_table ++ [(gid, [])] } : DAG (CVal V)) := by
    unfold rawAdd
    rw [setA_of_not_mem _ h7, setA_of_not_mem _ hn_adj]
  unfold add_group
  rw [if_neg (show ¬ c.type ≠ GROUP from fun hh => hh h1)]
  rw [if_neg (show ¬ (names.isEmpty = false ∧ ps.length = 1) from
    fun hh => absurd hh.2 (by omega))]
  rw [if_neg (show ¬ ps.isEmpty = true from by
    cases ps with
    | nil => simp at h4
    | cons a t => simp)]
  rw [if_neg h5, if_neg h6, if_pos h3, hbi]
  dsimp only
  rw [hsn]
  dsimp only
  cases dep with
  | none =>
    show (none, finishGid { c with graph := rawAdd c.graph gid (CVal.dict (names.zip ps)) } gid) = _
    unfold groupAdjAfter finishGid
    rw [if_neg (show gid ∉ ({ c with graph := (rawAdd c.graph gid
      (CVal.dict (names.zip ps))) } : CN V).used_group_ids from h6)]
    dsimp only
    rw [hraw_eq]
  | some x =>
    obtain ⟨hx1, hx2⟩ := h10 x rfl
    have hx2a : x ∈ keysOf c.graph.adjacency_table := by
      rw [← h8.1]
      exact hx2
    dsimp only
    rw [if_pos hx1]
    have hxgid : ¬ x = gid := fun hh => h7 (hh ▸ hx2)
    have hkeys1 : keysOf (rawAdd c.graph gid (CVal.dict (names.zip ps))).adjacency_table
        = keysOf c.graph.adjacency_table ++ [gid] := by
      rw [hraw_a, keysOf_append]
      rfl
    have hxmem1 : x ∈ keysOf (rawAdd c.graph gid (CVal.dict (names.zip ps))).adjacency_table := by
      rw [hkeys1]
      exact List.mem_append.2 (Or.inl hx2a)
    have hgmem1 : gid ∈ keysOf (rawAdd c.graph gid (CVal.dict (names.zip ps))).adjacency_table := by
      rw [hkeys1]
      simp
    have hsuccs1 : succsOf (rawAdd c.graph gid (CVal.dict (names.zip ps))).adjacency_table x
        = succsOf c.graph.adjacency_table x := by
      rw [hraw_a]
      exact succs_append_of_mem _ hx2a
    have hgsucc : gid ∉ succsOf (rawAdd c.graph gid (CVal.dict (names.zip ps))).adjacency_table x := by
      rw [hsuccs1]
      intro hh
      exact hn_adj (closedAdj_of_wf h8 x gid hh).2
    have hwf1 : Wf (rawAdd c.graph gid (CVal.dict (names.zip ps))) :=
      (rawAdd_spec h8 _ h7).2.2.1
    have hwf2 : Wf { rawAdd c.graph gid (CVal.dict (names.zip ps)) with adjacency_table :=
        (setA (rawAdd c.graph gid (CVal.dict (names.zip ps))).adjacency_table x
          (succsOf (rawAdd c.graph gid (CVal.dict (names.zip ps))).adjacency_table x ++ [gid])) } :=
      wf_set_edge hwf1 hxmem1 hgmem1
    have hac : ¬ HasCycle c.graph.adjacency_table :=
      not_hasCycle_of_detect_false h8 h9
    have hedge2 : ∀ u v, EdgeOf (setA (rawAdd c.graph gid (CVal.dict (names.zip ps))).adjacency_table x
        (succsOf (rawAdd c.graph gid (CVal.dict (names.zip ps))).adjacency_table x ++ [gid])) u v →
        EdgeOf c.graph.adjacency_table u v ∨ v = gid := by
      intro u v he
      rcases (edgeOf_set_edge _ x gid u v).1 he with h' | h'
      · rw [hraw_a] at h'
        exact Or.inl ((edgeOf_append_fresh hn_adj u v).1 h')
      · exact Or.inr h'.2
    have hsink2 : succsOf (setA (rawAdd c.graph gid (CVal.dict (names.zip ps))).adjacency_table x
        (succsOf (rawAdd c.graph gid (CVal.dict (names.zip ps))).adjacency_table x ++ [gid])) gid = [] := by
      rw [succs_setA_ne _ _ (fun hh => hxgid hh.symm), hraw_a]
      unfold succsOf
      rw [alookup_append_right _ hn_adj]
      simp [alookup]
    have hac2 : ¬ HasCycle (setA (rawAdd c.graph gid (CVal.dict (names.zip ps))).adjacency_table x
        (succsOf (rawAdd c.graph gid (CVal.dict (names.zip ps))).adjacency_table x ++ [gid])) :=
      not_hasCycle_sink hedge2 hsink2 hac
    have hdet2 : detect_cycle { rawAdd c.graph gid (CVal.dict (names.zip ps)) with adjacency_table :=
        (setA (rawAdd c.graph gid (CVal.dict (names.zip ps))).adjacency_table x
          (succsOf (rawAdd c.graph gid (CVal.dict (names.zip ps))).adjacency_table x ++ [gid])) }
        = false := detect_false_of_not_hasCycle hwf2 hac2
    have hse : add_sub_edge { c with graph := rawAdd c.graph gid (CVal.dict (names.zip ps)) } x gid
        = (none, { c with graph := { rawAdd c.graph gid (CVal.dict (names.zip ps)) with
            adjacency_table := (setA (rawAdd c.graph gid (CVal.dict (names.zip ps))).adjacency_table x
              (succsOf (rawAdd c.graph gid (CVal.dict (names.zip ps))).adjacency_table x ++ [gid])) } }) := by
      unfold add_sub_edge
      rw [if_neg hxgid, if_neg (not_not.2 hxmem1), if_neg (not_not.2 hgmem1),
        if_neg hgsucc]
      rw [if_neg (show ¬ (({ c with graph := rawAdd c.graph gid (CVal.dict (names.zip ps)) } : CN V).type
          ≠ PIPE ∧ detect_cycle _) from fun hh => by
        rw [hdet2] at hh
        exact absurd hh.2 (by simp))]
    rw [hse]
    dsimp only
    unfold groupAdjAfter finishGid
    rw [if_neg (show gid ∉ (({ c with graph := { rawAdd c.graph gid (CVal.dict (names.zip ps)) with
        adjacency_table := (setA (rawAdd c.graph gid (CVal.dict (names.zip ps))).adjacency_table x
          (succsOf (rawAdd c.graph gid (CVal.dict (names.zip ps))).adjacency_table x ++ [gid])) } }) : CN V).used_group_ids
      from h6)]
    dsimp only
    rw [hraw_v, hraw_a, succs_append_of_mem _ hx2a]

/-- C1: the spec says a cycle-creating `add_edge` removes the offending
edge before failing, leaving the graph exactly as before.  Executing the
code on the concrete graph with edge a→b and then calling
`add_edge("b","a")`: the call does raise the cycle error, but the edge
(b,a) is left in the successor list, the state differs from the state
before the call, and `detect_cycle` reports `true` afterwards. -/
theorem C1_cycle_edge_not_rolled_back :
    (add_edge gABe "b" "a").1 = some PyErr.cycleCreated ∧
    succsOf (add_edge gABe "b" "a").2.adjacency_table "b" = ["a"] ∧
    (add_edge gABe "b" "a").2 ≠ gABe ∧
    detect_cycle (add_edge gABe "b" "a").2 = true := by
  decide

/-- C2 counterexample: on a Pipeline-kind node, `add_sub_node "a"`,
`add_sub_node "b"` and then a direct `add_sub_edge("b","a")` all succeed
(return no error), yet `detect_cycle` afterwards returns `true` — the
Pipeline branch of `add_sub_edge` performs no cycle validation. -/
theorem C2_counterexample :
    (add_sub_node cnPipe "a" (CVal.obj 1)).1 = none ∧
    (add_sub_node (add_sub_node cnPipe "a" (CVal.obj 1)).2 "b" (CVal.obj 2)).1 = none ∧
    (add_sub_edge cnPipeAB "b" "a").1 = none ∧
    detect_cycle (add_sub_edge cnPipeAB "b" "a").2.graph = true := by
  decide

/-- C2 (amended): starting from an empty `DAG` or a freshly constructed
condensed node of any kind, after every sequence of individually
successful mutations in which `add_sub_edge` is never invoked directly on
a Pipeline-kind node, `detect_cycle()` returns `false`.  (`add_sub_edge`
on a Pipeline-kind node performs no cycle validation — see the
counterexample — so it is excluded; the implicit auto-chaining edges of
`add_sub_node`/`add_pipeline` are covered.) -/
theorem C2_acyclicity_invariant :
    (∀ (V : Type) (g : DAG V), ReachDAG g → detect_cycle g = false) ∧
    (∀ (V : Type) (c : CN V), ReachCN c → detect_cycle c.graph = false) := by
  constructor
  · intro V g hr
    obtain ⟨hwf, hac⟩ := reachDAG_inv hr
    exact detect_false_of_not_hasCycle hwf hac
  · intro V c hr
    obtain ⟨hwf, hac, _⟩ := reachCN_inv hr
    exact detect_false_of_not_hasCycle hwf hac

theorem C2_witness :
    detect_cycle gABe = false ∧ detect_cycle cnPipeAB.graph = false := by
  refine ⟨C2_acyclicity_invariant.1 Nat gABe ?_, C2_acyclicity_invariant.2 Nat cnPipeAB ?_⟩
  · exact ReachDAG.edge "a" "b"
      (ReachDAG.node "b" 0 (ReachDAG.node "a" 0 ReachDAG.empty)) (by decide)
  · exact ReachCN.subnode "b" (CVal.obj 2)
      (ReachCN.subnode "a" (CVal.obj 1)
        (ReachCN.make "CN3" PIPE cnPipe (by decide)) (by decide))
      (by decide)

/-- C3: the spec says `add_edge` fails with `UnknownNode` whenever the
destination is absent, regardless of whether the source exists.  Executing
the code on the one-node graph "x": `add_edge("x","y")` returns normally
(no error of any kind) and leaves the graph unchanged — only a missing
source raises. -/
theorem C3_missing_dest_silently_tolerated :
    (add_edge gX "x" "y").1 = none ∧ (add_edge gX "x" "y").2 = gX := by
  decide

/-- C4: on every acyclic graph state reached by successful operations,
`topological_sort` returns a sequence containing every node name exactly
once, in which the source of every edge appears strictly before its
target. -/
theorem C4_topological_sort_correct (V : Type) (g : DAG V) (hr : ReachDAG g)
    (hac : ¬ HasCycle g.adjacency_table) :
    (topological_sort g).Perm (keysOf g.values) ∧
      (∀ u w, EdgeOf g.adjacency_table u w →
        ∃ l1 l2, topological_sort g = l1 ++ u :: l2 ∧ w ∈ l2) := by
  obtain ⟨hwf, _⟩ := reachDAG_inv hr
  obtain ⟨hperm, htopo⟩ := topological_sort_spec hwf hac
  refine ⟨hperm, ?_⟩
  intro u w he
  have hu : u ∈ topological_sort g := by
    rw [hperm.mem_iff, hwf.1]
    exact edge_src_mem he
  obtain ⟨l1, l2, hsplit⟩ := List.append_of_mem hu
  exact ⟨l1, l2, hsplit, htopo l1 u l2 hsplit w he⟩

theorem C4_witness :
    (ReachDAG gABe ∧ ¬ HasCycle gABe.adjacency_table) ∧
      ((topological_sort gABe).Perm (keysOf gABe.values) ∧
        (∀ u w, EdgeOf gABe.adjacency_table u w →
          ∃ l1 l2, topological_sort gABe = l1 ++ u :: l2 ∧ w ∈ l2)) := by
  have hr : ReachDAG gABe := ReachDAG.edge "a" "b"
    (ReachDAG.node "b" 0 (ReachDAG.node "a" 0 ReachDAG.empty)) (by decide)
  have hac : ¬ HasCycle gABe.adjacency_table :=
    not_hasCycle_of_detect_false (by decide) (by decide)
  exact ⟨⟨hr, hac⟩, C4_topological_sort_correct Nat gABe hr hac⟩

/-- C5: for every well-formed graph state — the states the API can build —
`detect_cycle()` returns `true` exactly when the edge relation contains a
directed cycle, including cycles in components not reachable from
earlier-inserted nodes (the root loop visits every node). -/
theorem C5_detect_cycle_iff (V : Type) (g : DAG V) (hwf : Wf g) :
    detect_cycle g = true ↔ HasCycle g.adjacency_table :=
  detect_cycle_iff hwf

theorem C5_witness :
    Wf gCyc ∧ (detect_cycle gCyc = true ↔ HasCycle gCyc.adjacency_table) :=
  ⟨by decide, C5_detect_cycle_iff Nat gCyc (by decide)⟩

/-- C6 counterexample: the spec says `add_edge("x","x")` always fails with
`InvalidArgument`; the code instead returns normally — no error — leaving
the graph unchanged. -/
theorem C6_counterexample :
    (add_edge gX "x" "x").1 = none ∧ (add_edge gX "x" "x").2 = gX := by
  decide

/-- C6 (amended): a self-loop `add_edge(x,x)` is always rejected as a
silent no-op: the edge is never inserted and the graph state is returned
unchanged, but no error is raised (the failure the spec promises does not
occur; only `CondensedNode.add_sub_edge` raises on self-loops). -/
theorem C6_self_loop_silent_noop (V : Type) (g : DAG V) (x : String) :
    add_edge g x x = (none, g) := by
  unfold add_edge
  rw [if_pos rfl]

/-- C7: the spec says `add_group` with names/payloads of different lengths
fails with `InvalidArgument` leaving the state unchanged, and that the
group id is recorded only on success.  Executing the code on a fresh
Group node with `add_group("g1", None, ["a"], [1,2])`: the call returns
normally (no error), inserts nothing, and still adds "g1" to
`used_group_ids`. -/
theorem C7_length_mismatch_not_rejected :
    (add_group cnGroup "g1" none ["a"] [1, 2]).1 = none ∧
    (add_group cnGroup "g1" none ["a"] [1, 2]).2.graph = cnGroup.graph ∧
    (add_group cnGroup "g1" none ["a"] [1, 2]).2.used_group_ids = ["g1"] := by
  decide

/-- C8: insertion is idempotent.  Calling `add_node` twice with the same
name leaves the state identical to calling it once (the stored payload is
not overwritten), and a second identical `add_edge` call leaves the
successor list of the source exactly as the first call left it. -/
theorem C8_insertion_idempotent (V : Type) (g : DAG V) (n : String) (p : V)
    (s d : String) :
    add_node (add_node g n p) n p = add_node g n p ∧
    succsOf ((add_edge (add_edge g s d).2 s d).2).adjacency_table s
      = succsOf ((add_edge g s d).2).adjacency_table s := by
  constructor
  · by_cases h : n ∈ keysOf g.values
    · have e1 : add_node g n p = g := by
        unfold add_node
        rw [if_pos h]
      rw [e1]
      exact e1
    · have e1 : add_node g n p
          = ({ values := (setA g.values n p),
               adjacency_table := (setA g.adjacency_table n []) } : DAG V) := by
        unfold add_node
        rw [if_neg h]
      rw [e1]
      unfold add_node
      dsimp only
      rw [if_pos (mem_keysOf_setA_self g.values n p)]
  · rw [add_edge_snd_idem]

/-- C9: `add_pipeline(["a","b","c"],[1,2,3])` on a fresh Pipeline node
succeeds and produces exactly the edges (a,b) and (b,c), each stored once,
with `topological_sort()` returning [a,b,c]. -/
theorem C9_pipeline_chaining :
    (add_pipeline cnPipe ["a", "b", "c"]
      [CVal.obj 1, CVal.obj 2, CVal.obj 3]).1 = none ∧
    (add_pipeline cnPipe ["a", "b", "c"]
      [CVal.obj 1, CVal.obj 2, CVal.obj 3]).2.graph.adjacency_table
      = [("a", ["b"]), ("b", ["c"]), ("c", [])] ∧
    topological_sort (add_pipeline cnPipe ["a", "b", "c"]
      [CVal.obj 1, CVal.obj 2, CVal.obj 3]).2.graph = ["a", "b", "c"] := by
  decide

/-- C10 counterexample: the claim says every successful `add_group`
inserts exactly one new sub-node keyed by the group id.  With a repeated
member name — `add_group("g1", None, ["a","a"], [1,2])` on a fresh Group
node — the call returns normally (successfully) yet inserts nothing at
all and does not even record the group id. -/
theorem C10_counterexample :
    (add_group cnGroup "g1" none ["a", "a"] [1, 2]).1 = none ∧
    (add_group cnGroup "g1" none ["a", "a"] [1, 2]).2 = cnGroup := by
  decide

/-- C10 (amended): on a Group-kind node, a successful `add_group` whose
member names are pairwise distinct and match the payloads in length
(with ≥ 2 members, a fresh non-empty group id, and an existing non-empty
`depends_on` if one is given) inserts exactly one new sub-node, keyed by
the group id and holding the ordered member mapping; no member name
becomes a sub-node and no edge between members is created — the adjacency
table gains only the fresh group key and, when `depends_on` is given, the
single edge depends_on → group id — and `get_group` thereafter returns
the aggregate.  (With a repeated member name the call returns without
error and without inserting anything — see the counterexample.) -/
theorem C10_group_isolation (V : Type) (c : CN V) (gid : String)
    (dep : Option String) (names : List String) (ps : List V)
    (h1 : c.type = GROUP) (h2 : names.Nodup) (h3 : names.length = ps.length)
    (h4 : 2 ≤ ps.length) (h5 : gid ≠ "") (h6 : gid ∉ c.used_group_ids)
    (h7 : gid ∉ keysOf c.graph.values) (h8 : Wf c.graph)
    (h9 : detect_cycle c.graph = false)
    (h10 : ∀ x, dep = some x → x ≠ "" ∧ x ∈ keysOf c.graph.values) :
    (add_group c gid dep names ps).1 = none ∧
    (add_group c gid dep names ps).2.graph.values
      = c.graph.values ++ [(gid, CVal.dict (names.zip ps))] ∧
    (add_group c gid dep names ps).2.graph.adjacency_table
      = groupAdjAfter c.graph.adjacency_table gid dep ∧
    (add_group c gid dep names ps).2.used_group_ids
      = c.used_group_ids ++ [gid] ∧
    get_group (add_group c gid dep names ps).2 gid
      = (none, some (CVal.dict (names.zip ps))) := by
  have hs := add_group_spec h1 h2 h3 h4 h5 h6 h7 h8 h9 h10
  rw [hs]
  refine ⟨rfl, rfl, rfl, rfl, ?_⟩
  unfold get_group
  rw [if_pos (show (({ c with
      graph := ({ values := c.graph.values ++ [(gid, CVal.dict (names.zip ps))],
                  adjacency_table := groupAdjAfter c.graph.adjacency_table gid dep } :
        DAG (CVal V)),
      used_group_ids := c.used_group_ids ++ [gid] } : CN V)).type = GROUP from h1)]
  rw [if_pos (show gid ∈ c.used_group_ids ++ [gid] from by simp)]
  rw [show alookup (c.graph.values ++ [(gid, CVal.dict (names.zip ps))]) gid
    = some (CVal.dict (names.zip ps)) from by
    rw [alookup_append_right _ h7]
    simp [alookup]]

theorem C10_witness :
    ((cnGroup.type = GROUP ∧ (["a", "b"] : List String).Nodup ∧
      (["a", "b"] : List String).length = ([1, 2] : List Nat).length ∧
      2 ≤ ([1, 2] : List Nat).length ∧ "g1" ≠ "" ∧
      "g1" ∉ cnGroup.used_group_ids ∧ "g1" ∉ keysOf cnGroup.graph.values ∧
      Wf cnGroup.graph ∧ detect_cycle cnGroup.graph = false) ∧
    ((add_group cnGroup "g1" none ["a", "b"] [1, 2]).1 = none ∧
      (add_group cnGroup "g1" none ["a", "b"] [1, 2]).2.graph.values
        = cnGroup.graph.values ++ [("g1", CVal.dict [("a", 1), ("b", 2)])] ∧
      (add_group cnGroup "g1" none ["a", "b"] [1, 2]).2.graph.adjacency_table
        = groupAdjAfter cnGroup.graph.adjacency_table "g1" none ∧
      (add_group cnGroup "g1" none ["a", "b"] [1, 2]).2.used_group_ids
        = cnGroup.used_group_ids ++ ["g1"] ∧
      get_group (add_group cnGroup "g1" none ["a", "b"] [1, 2]).2 "g1"
        = (none, some (CVal.dict [("a", 1), ("b", 2)])))) :=
  ⟨⟨rfl, by decide, rfl, by decide, by decide, by decide, by decide, by decide, by decide⟩,
    C10_group_isolation Nat cnGroup "g1" none ["a", "b"] [1, 2]
      rfl (by decide) rfl (by decide) (by decide) (by decide) (by decide)
      (by decide) (by decide) (fun x hx => by simp at hx)⟩

end CompositeWorkflows
